import Mathlib

/-!
# Verification of the euporie table-rendering core

Shallow embedding of `src/euporie/core/formatted_text/table.py` (the table data
model, attribute resolution, column-width negotiation, border drawing and the
row-by-row renderer), together with theorems settling the frozen claims about
that code.

Support modules of the repository that are not part of the given sources
(`euporie/core/border.py`, `euporie/core/data_structures.py`,
`euporie/core/formatted_text/utils.py`) are modelled from the specification;
each such definition carries a doc comment starting with `Modelled from the
spec:`.  Everything else is translated directly from the Python source.
-/

/-- Modelled from the spec: `euporie/core/border.py` defines line styles with a
severity ordering "none < thin < thick" (spec §8 glossary "Line severity") and
an `InvisibleLine` that occupies space but is not visible.  `visible` mirrors
the `LineStyle.visible` attribute used by `computed_border_visibility`. -/
inductive LineStyle where
  | noLine
  | invisible
  | thin
  | thick
deriving DecidableEq, Repr

/-- Severity rank of a line style: none < invisible < thin < thick. -/
def LineStyle.rank : LineStyle → Nat
  | .noLine => 0
  | .invisible => 1
  | .thin => 2
  | .thick => 3

/-- Whether the line style draws a visible glyph (`LineStyle.visible`). -/
def LineStyle.visible : LineStyle → Bool
  | .thin => true
  | .thick => true
  | _ => false

/-- Python `max(a, b)` on two line styles: returns `b` only when strictly more
severe, otherwise `a` (matching Python's `max` which keeps the first argument
on ties). -/
def LineStyle.maxS (a b : LineStyle) : LineStyle :=
  if a.rank < b.rank then b else a

/-- `DiLineStyle` from `euporie/core/data_structures.py` (not in src).
Modelled from the spec: a per-edge record (top, right, bottom, left). -/
structure DiLineStyle where
  top : LineStyle
  right : LineStyle
  bottom : LineStyle
  left : LineStyle
deriving DecidableEq, Repr

/-- `DiLineStyle.from_value`: the same style on all four edges. -/
def DiLineStyle.fromValue (v : LineStyle) : DiLineStyle := ⟨v, v, v, v⟩

/-- `DiInt` from `euporie/core/data_structures.py` (not in src).
Modelled from the spec: a per-edge record of integers. -/
structure DiInt where
  top : Int
  right : Int
  bottom : Int
  left : Int
deriving DecidableEq, Repr

/-- `DiInt.from_value`. -/
def DiInt.fromValue (v : Int) : DiInt := ⟨v, v, v, v⟩

/-- `DiStr` from `euporie/core/data_structures.py` (not in src).
Modelled from the spec: a per-edge record of style strings. -/
structure DiStr where
  top : String
  right : String
  bottom : String
  left : String
deriving DecidableEq, Repr

/-- `DiStr.from_value`. -/
def DiStr.fromValue (v : String) : DiStr := ⟨v, v, v, v⟩

/-- `DiBool` from `euporie/core/data_structures.py` (not in src).
Modelled from the spec: a per-edge record of booleans. -/
structure DiBool where
  top : Bool
  right : Bool
  bottom : Bool
  left : Bool
deriving DecidableEq, Repr

/-- `FormattedTextAlign` from `euporie/core/formatted_text/utils.py` (not in
src).  Modelled from the spec: an alignment enumeration. -/
inductive Align where
  | left
  | center
  | right
deriving DecidableEq, Repr

/-- Python `" ".join(parts)`. -/
def joinSpace (parts : List String) : String :=
  String.intercalate " " parts

/-! ## Record-level attribute resolution (`Cell.computed_*`)

The Python properties read exactly four values per attribute kind: the
table's, the row's, the column's and the cell's setting.  They are embedded
here as pure functions of those four values, mirroring the property bodies. -/

/-- The per-edge resolution step of `Cell.computed_border_line`
(table.py lines 229-239): start from the cell's setting and fall back to the
row's, then the column's, then the table's, whenever the current value is
`NoLine`.  (The source contains a dead statement that re-reads the row value
and discards it; it does not affect the result.) -/
def chain4 (cellV rowV colV tableV : LineStyle) : LineStyle :=
  if cellV ≠ .noLine then cellV
  else if rowV ≠ .noLine then rowV
  else if colV ≠ .noLine then colV
  else tableV

/-- `Cell.computed_border_line` (table.py lines 221-240) as a function of the
four contributing `DiLineStyle` records. -/
def computed_border_line (tableB rowB colB cellB : DiLineStyle) : DiLineStyle :=
  ⟨chain4 cellB.top rowB.top colB.top tableB.top,
   chain4 cellB.right rowB.right colB.right tableB.right,
   chain4 cellB.bottom rowB.bottom colB.bottom tableB.bottom,
   chain4 cellB.left rowB.left colB.left tableB.left⟩

/-- The border-line resolution as the spec's §4.1 sentence literally states
it: per edge, the maximum-severity line style among the table's, row's,
column's and cell's settings. -/
def spec_max_border_line (tableB rowB colB cellB : DiLineStyle) : DiLineStyle :=
  ⟨((tableB.top.maxS rowB.top).maxS colB.top).maxS cellB.top,
   ((tableB.right.maxS rowB.right).maxS colB.right).maxS cellB.right,
   ((tableB.bottom.maxS rowB.bottom).maxS colB.bottom).maxS cellB.bottom,
   ((tableB.left.maxS rowB.left).maxS colB.left).maxS cellB.left⟩

/-- First line style different from `NoLine` in a list, else `NoLine`:
the cell → row → column → table fallback chain in specification form. -/
def firstNonNo (l : List LineStyle) : LineStyle :=
  (l.find? (fun v => v ≠ .noLine)).getD .noLine

/-- `Cell.computed_padding` (table.py lines 191-207): per edge, the maximum of
the table's, row's, column's and cell's padding and `0`. -/
def computed_padding (tableP rowP colP cellP : DiInt) : DiInt :=
  ⟨max (max (max (max tableP.top rowP.top) colP.top) cellP.top) 0,
   max (max (max (max tableP.right rowP.right) colP.right) cellP.right) 0,
   max (max (max (max tableP.bottom rowP.bottom) colP.bottom) cellP.bottom) 0,
   max (max (max (max tableP.left rowP.left) colP.left) cellP.left) 0⟩

/-- The padding resolution as the claim states it: the cell's value if set
(non-zero, the default being `0`), else the row's, else the column's, else the
table's. -/
def spec_chain_padding (tableP rowP colP cellP : DiInt) : DiInt :=
  let pick := fun (c r co t : Int) =>
    if c ≠ 0 then c else if r ≠ 0 then r else if co ≠ 0 then co else t
  ⟨pick cellP.top rowP.top colP.top tableP.top,
   pick cellP.right rowP.right colP.right tableP.right,
   pick cellP.bottom rowP.bottom colP.bottom tableP.bottom,
   pick cellP.left rowP.left colP.left tableP.left⟩

/-- The border-style resolution as the claim states it: the cell's tag if set
(non-empty, the default being the empty string), else the row's, else the
column's, else the table's. -/
def spec_chain_border_style (tableS rowS colS cellS : DiStr) : DiStr :=
  let pick := fun (c r co t : String) =>
    if c ≠ "" then c else if r ≠ "" then r else if co ≠ "" then co else t
  ⟨pick cellS.top rowS.top colS.top tableS.top,
   pick cellS.right rowS.right colS.right tableS.right,
   pick cellS.bottom rowS.bottom colS.bottom tableS.bottom,
   pick cellS.left rowS.left colS.left tableS.left⟩

/-- `Cell.computed_align` (table.py lines 183-189): the cell's alignment if
set, else `self.row.align or self.col.align or self.row.table.align`. -/
def computed_align (cellA rowA colA : Option Align) (tableA : Align) : Align :=
  match cellA with
  | some a => a
  | none =>
    match rowA with
    | some a => a
    | none =>
      match colA with
      | some a => a
      | none => tableA

/-- `Cell.computed_style` (table.py line 181): space-joined concatenation, in
source order table, column, row, cell. -/
def computed_style (tableS colS rowS cellS : String) : String :=
  joinSpace [tableS, colS, rowS, cellS]

/-- `SpacerCell.computed_border_line` (table.py lines 445-455): delegate to the
expanding cell's computed border line, then force the left edge invisible when
the expanding cell spans columns and the top edge invisible when it spans
rows. -/
def spacer_border_line (expandsCBL : DiLineStyle) (colspan rowspan : Nat) : DiLineStyle :=
  let b := expandsCBL
  let b := if 1 < colspan then { b with left := .invisible } else b
  if 1 < rowspan then { b with top := .invisible } else b

/-- `SpacerCell.computed_border_style` (table.py lines 432-443): delegate to
the expanding cell, then replace the forced-invisible interior edges' style by
the expanding cell's raw style. -/
def spacer_border_style (expandsCBS : DiStr) (expandsStyle : String)
    (colspan rowspan : Nat) : DiStr :=
  let b := expandsCBS
  let b := if 1 < colspan then { b with left := expandsStyle } else b
  if 1 < rowspan then { b with top := expandsStyle } else b

/-! ## Glyphs and text primitives -/

/-- Junction glyph selection by arm visibility (north, east, south, west).
Modelled from the spec: `euporie/core/border.py` maps the arm-presence
combination to "plus, T-shapes, corners, straight run, or blank" (§4.4);
line-weight variants of the glyphs are collapsed to the thin glyph here, since
no verified claim distinguishes them—only blank versus non-blank and the
absence of line breaks matter. -/
def boolGridChar : Bool → Bool → Bool → Bool → Char
  | false, false, false, false => ' '
  | true,  true,  true,  true  => '┼'
  | true,  true,  true,  false => '├'
  | true,  false, true,  true  => '┤'
  | false, true,  true,  true  => '┬'
  | true,  true,  false, true  => '┴'
  | true,  false, true,  false => '│'
  | false, true,  false, true  => '─'
  | false, true,  true,  false => '┌'
  | false, false, true,  true  => '┐'
  | true,  true,  false, false => '└'
  | true,  false, false, true  => '┘'
  | true,  false, false, false => '╵'
  | false, true,  false, false => '╶'
  | false, false, true,  false => '╷'
  | false, false, false, true  => '╴'

/-- `grid_char(GridChar(n, e, s, w))` from `euporie/core/border.py` (not in
src).  Modelled from the spec: invisible and absent arms draw as blank. -/
def gridCharC (n e s w : LineStyle) : Char :=
  boolGridChar n.visible e.visible s.visible w.visible

/-- `Table.get_node` (table.py lines 994-1010): junction glyph from the four
adjoining cells' border lines (northwest, northeast, southeast, southwest). -/
def get_node (nw ne se sw : DiLineStyle) : Char :=
  gridCharC (nw.right.maxS ne.left) (ne.bottom.maxS se.top)
    (se.left.maxS sw.right) (sw.top.maxS nw.bottom)

/-- `Table.get_horizontal_edge` (table.py lines 1012-1017). -/
def get_horizontal_edge (n s : DiLineStyle) : Char :=
  gridCharC .noLine (n.bottom.maxS s.top) .noLine (n.bottom.maxS s.top)

/-- `Table.get_vertical_edge` (table.py lines 1019-1024). -/
def get_vertical_edge (w e : DiLineStyle) : Char :=
  gridCharC (w.right.maxS e.left) .noLine (w.right.maxS e.left) .noLine

/-- Python `char.strip()` on a one-character string: empty if the character is
whitespace, else the character itself. -/
def stripChar (c : Char) : String :=
  if c.isWhitespace then "" else String.mk [c]

/-- Python `" " * n` (empty for non-positive counts). -/
def mkSpaces (n : Int) : String :=
  String.mk (List.replicate n.toNat ' ')

/-- Python `ch * n` for a single character. -/
def repChar (c : Char) (n : Int) : String :=
  String.mk (List.replicate n.toNat c)

/-- Split a character list at every occurrence of `sep`; always returns at
least one (possibly empty) piece.  Used to model `split_lines` from
`prompt_toolkit`, which cuts formatted text at newline characters. -/
def splitChar (sep : Char) : List Char → List (List Char)
  | [] => [[]]
  | x :: xs =>
    match splitChar sep xs with
    | [] => [[x]]
    | h :: t => if x = sep then [] :: h :: t else (x :: h) :: t

/-- Greedy chunking of a line into pieces of at most `w` characters; the fuel
is the line length, which suffices because every step drops `w ≥ 1`
characters. -/
def chunksGo (w : Nat) : Nat → List Char → List (List Char)
  | 0, l => [l]
  | fuel + 1, l => if l.length ≤ w then [l] else l.take w :: chunksGo w fuel (l.drop w)

/-- `wrap` from `euporie/core/formatted_text/utils.py` (not in src), per line.
Modelled from the spec: cell text is "wrapped to `width`" (§4.1); a
non-positive width leaves the line unsplit. -/
def wrapChunks (w : Int) (l : List Char) : List (List Char) :=
  if w ≤ 0 then [l] else chunksGo w.toNat l.length l

/-- Number of newline characters in a string. -/
def countNl (s : String) : Nat := s.data.count '\n'

/-- A styled-text fragment `(style, text)`. -/
abbrev Frag := String × String

/-- Newline count of a fragment list (line breaks live in the text parts). -/
def nlCount (l : List Frag) : Nat := (l.map (fun fr => countNl fr.2)).sum

/-- Number of display lines of a rendered fragment sequence. -/
def outLineCount (l : List Frag) : Nat := nlCount l + 1

/-! ## Grid model of a constructed table

After construction the row and column containers of a `Table` are synchronized
views of one grid of cells (`sync_rows_to_cols` / `sync_cols_to_rows`, and the
back-registration in `RowCol.add_cell`): `row.cells` lists grid row `i` and
`col.cells` lists grid column `j`.  A constructed table is therefore embedded
as a grid of cells plus the per-row, per-column and table-level default
attributes.  Spanning positions hold spacer cells that point at the position
of their expanding cell, mirroring `SpacerCell.expands`. -/

/-- Whether a grid position holds a real cell or a `SpacerCell`; a spacer
records the grid position of its expanding cell and its span index. -/
inductive CellKind where
  | content
  | spacer (origin : Nat × Nat) (spanIndex : Nat)
deriving DecidableEq, Repr

/-- One grid cell with its raw (unresolved) attributes, as stored on the
Python `Cell` object. -/
structure GCell where
  kind : CellKind
  text : String
  width : Option Int
  colspan : Nat
  rowspan : Nat
  align : Option Align
  style : String
  padding : DiInt
  borderLine : DiLineStyle
  borderStyle : DiStr
deriving DecidableEq, Repr

/-- The attributes auto-vivified cells carry (`DummyCell()`): no content, no
explicit width, span 1, no alignment, empty style, zero padding, `NoLine`
borders. -/
def defaultGCell : GCell :=
  ⟨.content, "", none, 1, 1, none, "", DiInt.fromValue 0,
   DiLineStyle.fromValue .noLine, DiStr.fromValue ""⟩

/-- Row-level or column-level default attributes (`RowCol.__init__`). -/
structure LevelAttrs where
  align : Option Align
  style : String
  padding : DiInt
  borderLine : DiLineStyle
  borderStyle : DiStr
deriving DecidableEq, Repr

/-- Attributes of an auto-vivified `Row`/`Col` (the `defaultdict` factories in
`Table.__init__` create them with all defaults). -/
def defaultAttrs : LevelAttrs :=
  ⟨none, "", DiInt.fromValue 0, DiLineStyle.fromValue .noLine, DiStr.fromValue ""⟩

/-- A constructed table: the cell grid, the per-row and per-column defaults,
and the table-level attributes read by the `computed_*` properties
(`Table.__init__`). -/
structure RTable where
  cells : List (List GCell)
  rowAttrs : List LevelAttrs
  colAttrs : List LevelAttrs
  align : Align
  style : String
  padding : DiInt
  borderLine : DiLineStyle
  borderStyle : DiStr
  collapse : Bool
  expand : Bool
deriving DecidableEq, Repr

/-- Number of rows (`len(table.rows)`). -/
def RTable.nrows (t : RTable) : Nat := t.cells.length

/-- Number of cells in row `i` (`len(row.cells)`). -/
def RTable.rowLen (t : RTable) (i : Nat) : Nat := (t.cells.getD i []).length

/-- Number of columns (`len(table.cols)`); for a synchronized table this is
the widest row. -/
def RTable.ncols (t : RTable) : Nat := (t.cells.map List.length).foldr max 0

/-- The cell at grid position `(i, j)`. -/
def RTable.cellAt (t : RTable) (i j : Nat) : GCell := (t.cells.getD i []).getD j defaultGCell

/-- Row `i`'s default attributes (auto-vivified rows get the defaults). -/
def RTable.rowAttr (t : RTable) (i : Nat) : LevelAttrs := t.rowAttrs.getD i defaultAttrs

/-- Column `j`'s default attributes. -/
def RTable.colAttr (t : RTable) (j : Nat) : LevelAttrs := t.colAttrs.getD j defaultAttrs

/-- `Cell.computed_border_line` at a grid position: the chain over the cell's,
row's, column's and table's settings. -/
def RTable.cblRaw (t : RTable) (i j : Nat) : DiLineStyle :=
  computed_border_line t.borderLine (t.rowAttr i).borderLine (t.colAttr j).borderLine
    (t.cellAt i j).borderLine

/-- The origin position a cell delegates to: itself for content cells, the
expanding cell's position for spacers (`Cell.expands`). -/
def RTable.originOf (t : RTable) (i j : Nat) : Nat × Nat :=
  match (t.cellAt i j).kind with
  | .content => (i, j)
  | .spacer o _ => o

/-- `computed_border_line` of the cell at `(i, j)`: content cells resolve the
chain; spacer cells delegate to their expanding cell and force interior seam
edges invisible (`SpacerCell.computed_border_line`). -/
def RTable.cblAt (t : RTable) (i j : Nat) : DiLineStyle :=
  match (t.cellAt i j).kind with
  | .content => t.cblRaw i j
  | .spacer o _ => spacer_border_line (t.cblRaw o.1 o.2) (t.cellAt o.1 o.2).colspan
      (t.cellAt o.1 o.2).rowspan

/-- `cell.expands.computed_border_visibility` as used by
`Cell.computed_border_width`: per edge, visibility of the expanding cell's
computed border line. -/
def RTable.visExpands (t : RTable) (i j : Nat) : DiBool :=
  let o := t.originOf i j
  let b := t.cblRaw o.1 o.2
  ⟨b.top.visible, b.right.visible, b.bottom.visible, b.left.visible⟩

/-- `Cell.computed_border_width` (table.py lines 300-369) for the attached cell
at `(i, j)`: every edge has width 1, except that under
`collapse_empty_borders` an edge has width 0 when no cell of the cell's
row/column is visible on it and no cell of the adjacent row/column is visible
on the opposite edge. -/
def RTable.cbwAt (t : RTable) (i j : Nat) : DiInt :=
  if t.collapse then
    let rowAny := fun (r : Nat) (f : DiBool → Bool) =>
      (List.range (t.rowLen r)).any (fun j2 => f (t.visExpands r j2))
    let colAny := fun (c : Nat) (f : DiBool → Bool) =>
      (List.range t.nrows).any (fun i2 => f (t.visExpands i2 c))
    let top := rowAny i (·.top) || (0 < i && rowAny (i - 1) (·.bottom))
    let right := colAny j (·.right) || (j + 1 < t.ncols && colAny (j + 1) (·.left))
    let bottom := rowAny i (·.bottom) || (i + 1 < t.nrows && rowAny (i + 1) (·.top))
    let left := colAny j (·.left) || (0 < j && colAny (j - 1) (·.right))
    ⟨if top then 1 else 0, if right then 1 else 0,
     if bottom then 1 else 0, if left then 1 else 0⟩
  else DiInt.fromValue 1

/-- `Cell.computed_border_style` for a content cell: per edge, the space-join
of the table's, row's, column's and cell's border styles when the edge is
visible, else the empty string (table.py lines 256-279). -/
def RTable.cbsRaw (t : RTable) (i j : Nat) : DiStr :=
  let pick := fun (vis : Bool) (e : DiStr → String) =>
    if vis then
      joinSpace [e t.borderStyle, e (t.rowAttr i).borderStyle,
        e (t.colAttr j).borderStyle, e (t.cellAt i j).borderStyle]
    else ""
  let b := t.cblRaw i j
  ⟨pick b.top.visible (·.top), pick b.right.visible (·.right),
   pick b.bottom.visible (·.bottom), pick b.left.visible (·.left)⟩

/-- `computed_border_style` of the cell at `(i, j)`, with the `SpacerCell`
override delegating to the expanding cell. -/
def RTable.cbsAt (t : RTable) (i j : Nat) : DiStr :=
  match (t.cellAt i j).kind with
  | .content => t.cbsRaw i j
  | .spacer o _ => spacer_border_style (t.cbsRaw o.1 o.2) (t.cellAt o.1 o.2).style
      (t.cellAt o.1 o.2).colspan (t.cellAt o.1 o.2).rowspan

/-- `computed_padding` of the cell at `(i, j)`. -/
def RTable.cpadAt (t : RTable) (i j : Nat) : DiInt :=
  computed_padding t.padding (t.rowAttr i).padding (t.colAttr j).padding (t.cellAt i j).padding

/-- `computed_style` of the cell at `(i, j)`. -/
def RTable.cstyleAt (t : RTable) (i j : Nat) : String :=
  computed_style t.style (t.colAttr j).style (t.rowAttr i).style (t.cellAt i j).style

/-- A reference to the cell at a grid position, or `none` for the detached
`DummyCell()` neighbors the renderer synthesizes at table edges. -/
abbrev CellRef := Option (Nat × Nat)

/-- `computed_border_line` through a reference; a detached `DummyCell` chains
through `DummyRow`/`DummyCol`/`DummyTable`, all of which default to `NoLine`. -/
def RTable.cblRef (t : RTable) : CellRef → DiLineStyle
  | none => DiLineStyle.fromValue .noLine
  | some p => t.cblAt p.1 p.2

/-- `computed_border_style` through a reference; a detached `DummyCell` has no
visible edge, so every edge style is empty. -/
def RTable.cbsRef (t : RTable) : CellRef → DiStr
  | none => DiStr.fromValue ""
  | some p => t.cbsAt p.1 p.2

/-- `computed_border_width` through a reference; `DummyCell` overrides it to
zero on all edges. -/
def RTable.cbwRef (t : RTable) : CellRef → DiInt
  | none => DiInt.fromValue 0
  | some p => t.cbwAt p.1 p.2

/-! ## Width negotiation (`Table._calculate_col_widths`) -/

/-- `max_line_width` from `euporie/core/formatted_text/utils.py` (not in src).
Modelled from the spec: the widest line of the cell's text, measured in
character cells (wide-character measurement is out of scope of the claims). -/
def max_line_width (s : String) : Int :=
  ((splitChar '\n' s.data).map (fun l => (l.length : Int))).foldr max 0

/-- `Cell.computed_width` (table.py lines 156-161): zero for column-spanning
cells, else the explicit width if truthy (`self.width or ...`, so an explicit
width of `0` falls through), else the natural text width. -/
def RTable.computedWidth (t : RTable) (i j : Nat) : Int :=
  let cell := t.cellAt i j
  if 1 < cell.colspan then 0
  else
    match cell.width with
    | some w => if w = 0 then max_line_width cell.text else w
    | none => max_line_width cell.text

/-- `Cell.inner_width` (table.py lines 163-171): computed width plus left and
right computed padding; zero for column-spanning cells. -/
def RTable.innerWidth (t : RTable) (i j : Nat) : Int :=
  if 1 < (t.cellAt i j).colspan then 0
  else
    let pad := t.cpadAt i j
    t.computedWidth i j + pad.left + pad.right

/-- Python `max(list)` for a possibly-empty list, with `0` for the empty case
(`RowCol.max_inner_width`, table.py lines 656-662). -/
def listMaxD : List Int → Int
  | [] => 0
  | x :: xs => xs.foldl max x

/-- `Col.max_inner_width` of column `j`: the maximum inner width over the
column's cells. -/
def RTable.maxInner (t : RTable) (j : Nat) : Int :=
  listMaxD ((List.range t.nrows).map (fun i => t.innerWidth i j))

/-- The border contribution of `total_width` (table.py lines 938-944): each
column's first cell's right border width, plus the first column's first cell's
left border width. -/
def RTable.borderSum (t : RTable) : Int :=
  ((List.range t.ncols).map (fun j => (t.cbwAt 0 j).right)).sum + (t.cbwAt 0 0).left

/-- The seed column widths: each column's `max_inner_width`
(table.py line 936). -/
def RTable.seedWidths (t : RTable) : List Int :=
  (List.range t.ncols).map (fun j => t.maxInner j)

/-- Indices of columns in which no cell declares an explicit width; only these
are expanded while any remain (table.py lines 951-955). -/
def RTable.unpinnedIdx (t : RTable) : List Nat :=
  (List.range t.ncols).filter
    (fun j => (List.range t.nrows).all (fun i => (t.cellAt i j).width = none))

/-- First index among `cand` whose width is minimal (Python
`min(col_index_widths, key=lambda x: x[1])[0]`, which keeps the earliest of
equals). -/
def argminBy (ws : List Int) : List Nat → Nat
  | [] => 0
  | c :: rest => rest.foldl (fun best j => if ws.getD j 0 < ws.getD best 0 then j else best) c

/-- First index of a maximal width (Python
`max(enumerate(col_widths), key=lambda x: x[1])[0]`). -/
def argmaxIdx (ws : List Int) : Nat :=
  argminBy (ws.map (fun v => -v)) (List.range ws.length)

/-- One iteration of the expansion loop: add one unit to the
currently-smallest candidate column. -/
def bumpUp (cand : List Nat) (ws : List Int) : List Int :=
  let i := argminBy ws cand
  ws.set i (ws.getD i 0 + 1)

/-- One iteration of the contraction loop: remove one unit from the
currently-widest column. -/
def bumpDown (ws : List Int) : List Int :=
  let i := argmaxIdx ws
  ws.set i (ws.getD i 0 - 1)

/-- The expansion loop (`expand` in `_calculate_col_widths`): while the total
width is below the clamped target, add one unit to the smallest candidate
column.  Structured with fuel; each productive step raises the total by
exactly 1, so `(maxW - total).toNat` steps reach the target. -/
def expandGo (B maxW : Int) (cand : List Nat) : Nat → List Int → List Int
  | 0, ws => ws
  | fuel + 1, ws => if B + ws.sum < maxW then expandGo B maxW cand fuel (bumpUp cand ws) else ws

/-- `expand(target)` (table.py lines 946-959): the target is clamped below by
`len(col_widths) * min_col_width`. -/
def expandW (B target mcw : Int) (cand : List Nat) (ws : List Int) : List Int :=
  let maxW := max target (mcw * (ws.length : Int))
  expandGo B maxW cand ((maxW - (B + ws.sum)).toNat) ws

/-- The contraction loop (`contract` in `_calculate_col_widths`): while the
total exceeds the clamped target, remove one unit from the widest column. -/
def contractGo (B maxW : Int) : Nat → List Int → List Int
  | 0, ws => ws
  | fuel + 1, ws => if maxW < B + ws.sum then contractGo B maxW fuel (bumpDown ws) else ws

/-- `contract(target)` (table.py lines 961-966). -/
def contractW (B target mcw : Int) (ws : List Int) : List Int :=
  let maxW := max target (mcw * (ws.length : Int))
  contractGo B maxW ((B + ws.sum - maxW).toNat) ws

/-- A `prompt_toolkit` `Dimension`: independently optional minimum, preferred
and maximum targets (`none` encodes `*_specified == False`). -/
structure Dim where
  min : Option Int
  preferred : Option Int
  max : Option Int
deriving DecidableEq, Repr

/-- `Dimension.exact(n)` / `to_dimension(n)` for an integer width request. -/
def Dim.exact (n : Int) : Dim := ⟨some n, some n, some n⟩

/-- `Table._calculate_col_widths` (table.py lines 914-983).  Evaluating
`total_width` on the seed widths indexes `cols[0]` and every column's
`cells[0]`, so a table with no columns or no rows raises `IndexError`; this is
modelled as `none`.  Otherwise the policy: if a preferred width is given,
expand or contract toward it; else if a maximum is given, contract above it
and expand toward it only with the expand flag (both tests read the stale
pre-loop total); else if a minimum is given, expand up to it. -/
def RTable.calc_col_widths (t : RTable) (w : Dim) (expandToWidth : Bool) (mcw : Int) :
    Option (List Int) :=
  if t.nrows = 0 ∨ t.ncols = 0 then none
  else
    let ws := t.seedWidths
    let B := t.borderSum
    let cand0 := t.unpinnedIdx
    let cand := if cand0.isEmpty then List.range t.ncols else cand0
    let cur := B + ws.sum
    some (match w.preferred with
      | some p =>
        if cur < p then expandW B p mcw cand ws
        else if p < cur then contractW B p mcw ws
        else ws
      | none =>
        match w.max with
        | some m =>
          let ws1 := if m < cur then contractW B m mcw ws else ws
          if cur < m ∧ expandToWidth then expandW B m mcw cand ws1 else ws1
        | none =>
          match w.min with
          | some mn => if cur < mn then expandW B mn mcw cand ws else ws
          | none => ws)

/-- `Table.calculate_col_widths` (table.py lines 985-992): delegates with the
table's expand flag; note the caller does not forward its own `min_col_width`
argument, so the default of 4 is always used. -/
def RTable.calculate_col_widths (t : RTable) (w : Dim) : Option (List Int) :=
  t.calc_col_widths w t.expand 4

/-! ## The renderer -/

/-- `fragment_list_width` from `prompt_toolkit` utils.  Modelled from the
spec: the total character width of a fragment list. -/
def fragment_list_width (l : List Frag) : Int :=
  ((l.map (fun fr => fr.2.length)).sum : Nat)

/-- `Cell.lines(width)` (table.py lines 130-154).  Modelled from the spec for
the missing `wrap`/`align`/`split_lines` helpers: the cell's text is split
into lines, each wrapped to `width`, with `computed_padding.top` blank lines
prepended and `computed_padding.bottom` appended, every line styled with the
computed style.  (Alignment moves characters within a line and is irrelevant
to the verified claims, so lines are kept left-aligned.) -/
def RTable.cellLines (t : RTable) (i j : Nat) (w : Int) : List (List Frag) :=
  let pad := t.cpadAt i j
  let st := t.cstyleAt i j
  let content := (splitChar '\n' (t.cellAt i j).text.data).flatMap (wrapChunks w)
  (List.replicate pad.top.toNat [] ++ content ++ List.replicate pad.bottom.toNat []).map
    (fun lc => [(st, String.mk lc)])

/-- Whether the cell at `(i, j)` is a `SpacerCell` inside a column span
(`isinstance(cell, SpacerCell) and cell.expands.colspan > 1`). -/
def RTable.isColspanSpacer (t : RTable) (i j : Nat) : Bool :=
  match (t.cellAt i j).kind with
  | .content => false
  | .spacer o _ => 1 < (t.cellAt o.1 o.2).colspan

/-- `_calc_cell_width` (table.py lines 1129-1147): zero for colspan spacers;
otherwise the cell's column width minus its own horizontal padding, plus each
additionally spanned column's width and one unit per crossed border
(`borders[col]` is a tuple and hence always truthy in the source). -/
def RTable.calcCellWidth (t : RTable) (i j : Nat) (cw : List Int) : Int :=
  if t.isColspanSpacer i j then 0
  else
    let pad := t.cpadAt i j
    let base := cw.getD j 0 - pad.left - pad.right
    (List.range ((t.cellAt i j).colspan - 1)).foldl
      (fun a m => a + cw.getD (j + 1 + m) 0 + 1) base

/-- The vertical boundary fragments of a table row (table.py lines 1107-1127):
for each of the `n + 1` cell boundaries, the joined border style and the
vertical-edge glyph, stripped when both adjacent computed border widths are
zero. -/
def RTable.vertBorders (t : RTable) (i : Nat) : List Frag :=
  let n := t.rowLen i
  (List.range (n + 1)).map (fun k =>
    let wRef : CellRef := if k = 0 then none else some (i, k - 1)
    let eRef : CellRef := if k = n then none else some (i, k)
    let style := joinSpace [(t.cbsRef wRef).right, (t.cbsRef eRef).left]
    let ch := get_vertical_edge (t.cblRef wRef) (t.cblRef eRef)
    if (t.cbwRef wRef).right = 0 ∧ (t.cbwRef eRef).left = 0
    then (style, stripChar ch)
    else (style, String.mk [ch]))

/-- `Table.draw_table_row` (table.py lines 1097-1186): compute the vertical
boundary glyphs, wrap every cell of the row to its occupied width, and emit
one output line per wrapped line of the tallest cell, interleaving borders,
padding, content, excess filler and the trailing border, each line ending in a
line break.  Colspan spacer cells are skipped.  `row=None` yields nothing. -/
def RTable.draw_table_row (t : RTable) (r : Option Nat) (cw : List Int) : List Frag :=
  match r with
  | none => []
  | some i =>
    let n := t.rowLen i
    let borders := t.vertBorders i
    let linesOf := fun j => t.cellLines i j (t.calcCellWidth i j cw)
    let k := ((List.range n).map (fun j => (linesOf j).length)).foldr max 0
    (List.range k).flatMap (fun li =>
      ((List.range n).flatMap (fun j =>
        if t.isColspanSpacer i j then []
        else
          let line := (linesOf j).getD li []
          let cell := t.cellAt i j
          let pad := t.cpadAt i j
          let pstyle := cell.style ++ " nounderline"
          let excess := ((cw.drop j).take cell.colspan).sum
            - pad.left - fragment_list_width line - pad.right
          borders.getD j ("", "") :: (pstyle, mkSpaces pad.left) ::
            (line ++ [(cell.style, mkSpaces excess), (pstyle, mkSpaces pad.right)])))
      ++ [borders.getD n ("", ""), ("", "\n")])

/-- The horizontal-edge glyph at column `i` of a border row: resolved from the
two adjacent cells only (the cell above's bottom edge and the cell below's top
edge). -/
def RTable.borderEdgeChar (t : RTable) (refA refB : Nat → CellRef) (i : Nat) : Char :=
  get_horizontal_edge (t.cblRef (refA (i + 1))) (t.cblRef (refB (i + 1)))

/-- `Table.draw_border_row` (table.py lines 1026-1095): for each column
boundary a junction glyph (stripped when both adjacent computed border widths
are zero) followed by the horizontal-edge glyph repeated to the column width;
if collapsing is enabled and every edge glyph is blank, the whole row is
dropped.  A `None` row stands for the table edge and contributes detached
`DummyCell`s. -/
def RTable.draw_border_row (t : RTable) (a b : Option Nat) (cw : List Int)
    (collapse : Bool) : List Frag :=
  let la := match a with
    | some i => t.rowLen i
    | none => match b with | some i => t.rowLen i | none => 0
  let lb := match b with | some i => t.rowLen i | none => la
  let refA : Nat → CellRef := fun k =>
    match a with
    | none => none
    | some i => if 1 ≤ k ∧ k ≤ la then some (i, k - 1) else none
  let refB : Nat → CellRef := fun k =>
    match b with
    | none => none
    | some i => if 1 ≤ k ∧ k ≤ lb then some (i, k - 1) else none
  let iters := min la lb + 1
  let m := min iters cw.length
  let edges := (List.range m).map (t.borderEdgeChar refA refB)
  if collapse ∧ edges.all Char.isWhitespace then []
  else
    ((List.range iters).flatMap (fun i =>
      let nw := refA i
      let ne := refA (i + 1)
      let sw := refB i
      let se := refB (i + 1)
      let nstyle := joinSpace [(t.cbsRef sw).top, (t.cbsRef sw).right,
        (t.cbsRef ne).bottom, (t.cbsRef ne).left, (t.cbsRef se).top,
        (t.cbsRef se).left, (t.cbsRef nw).bottom, (t.cbsRef nw).right]
      let nchar := get_node (t.cblRef nw) (t.cblRef ne) (t.cblRef se) (t.cblRef sw)
      let nfrag : List Frag :=
        if (t.cbwRef nw).right = 0 ∧ (t.cbwRef ne).left = 0 then
          (if nchar.isWhitespace then [] else [(nstyle, String.mk [nchar])])
        else [(nstyle, String.mk [nchar])]
      let efrag : List Frag :=
        if i < cw.length then
          [(joinSpace [(t.cbsRef se).top, (t.cbsRef ne).bottom],
            repChar (t.borderEdgeChar refA refB i) (cw.getD i 0))]
        else []
      nfrag ++ efrag)) ++ [("", "\n")]

/-- The row boundaries traversed by `render`: `zip([None, *rows], [*rows,
None])`. -/
def boundaries (n : Nat) : List (Option Nat × Option Nat) :=
  ((none : Option Nat) :: (List.range n).map some).zip ((List.range n).map some ++ [none])

/-- `Table.render` (table.py lines 1188-1206): negotiate column widths (which
raises on an empty table, modelled as `none`), then alternate border rows and
content rows over every row boundary and drop the final trailing line-break
fragment. -/
def RTable.render (t : RTable) (w : Dim) : Option (List Frag) :=
  match t.calculate_col_widths w with
  | none => none
  | some cw =>
    let out := if t.nrows ≠ 0 then
        (boundaries t.nrows).flatMap (fun ab =>
          t.draw_border_row ab.1 ab.2 cw t.collapse ++ t.draw_table_row ab.2 cw)
      else []
    some (if out = [] then out else out.dropLast)

/-- The number of wrapped lines of the tallest cell of row `i` at the given
column widths. -/
def RTable.rowHeight (t : RTable) (i : Nat) (cw : List Int) : Nat :=
  ((List.range (t.rowLen i)).map
    (fun j => (t.cellLines i j (t.calcCellWidth i j cw)).length)).foldr max 0

/-- The number of border rows that are actually emitted (not collapsed). -/
def RTable.borderRowCount (t : RTable) (cw : List Int) : Nat :=
  ((boundaries t.nrows).filter
    (fun ab => !(t.draw_border_row ab.1 ab.2 cw t.collapse).isEmpty)).length

/-! ## Mutation model: sparse containers, `add_cell` and `add_row`

`Table._rows` / `Table._cols` and `RowCol._cells` are integer-keyed
dictionaries (`defaultdict`).  They are embedded as association lists with
dictionary-style insertion (`ains` replaces an existing key in place, else
appends), which models Python `d[k] = v` exactly. -/

/-- Dictionary lookup `d.get(k)`. -/
def alook : List (Nat × α) → Nat → Option α
  | [], _ => none
  | (k, v) :: rest, key => if k = key then some v else alook rest key

/-- Dictionary assignment `d[k] = v`. -/
def ains : List (Nat × α) → Nat → α → List (Nat × α)
  | [], k, v => [(k, v)]
  | (k0, v0) :: rest, k, v =>
    if k0 = k then (k0, v) :: rest else (k0, v0) :: ains rest k v

/-- The keys of a dictionary. -/
def akeys (l : List (Nat × α)) : List Nat := l.map Prod.fst

/-- Python `max([-1] + list(d.keys())) + 1`: the next never-used index
(`RowCol.add_cell`, table.py line 575). -/
def nextIndex (l : List (Nat × α)) : Nat :=
  (akeys l).foldr (fun k a => max (k + 1) a) 0

/-- Python `min` of a nonempty list of indices (`[]` is never passed; `0`
keeps the function total). -/
def minList : List Nat → Nat
  | [] => 0
  | x :: xs => xs.foldl min x

/-- A cell as the structural claims see it: whether it is a `SpacerCell`, the
identity of the cell it expands (`Cell.expands`, itself for content cells),
its span index, and its spans. -/
structure SCell where
  expands : Nat
  isSpacer : Bool
  spanIndex : Nat
  colspan : Nat
  rowspan : Nat
deriving DecidableEq, Repr

/-- The structural state of a table: the row dictionary (row index → cell
dictionary keyed by column index) and the synchronized column dictionary
(column index → cell dictionary keyed by row index). -/
structure STable where
  rows : List (Nat × List (Nat × SCell))
  cols : List (Nat × List (Nat × SCell))
deriving DecidableEq, Repr

/-- The fresh `SpacerCell` created for span index `i` of cell `cid`
(`SpacerCell.__init__`: colspan and rowspan 1). -/
def mkSpacer (cid i : Nat) : SCell := ⟨cid, true, i, 1, 1⟩

/-- `RowCol.add_cell` in the row case (table.py lines 573-608), for a row
whose key `r` is also its position in `table.rows` (true for every table
whose row keys are dense, which construction maintains).  The cell lands at
the lowest never-used column index `c` of the row; it is back-registered into
column `c` at row `r`; a colspan of `k` writes spacers at columns
`c+1..c+k-1` of the row and at row `r` of those columns; a rowspan of `k`
writes spacers at rows `r+1..r+k-1` of column `c` and at column `c` of those
rows.  Missing rows/columns are auto-vivified. -/
def STable.add_cell_row (t : STable) (r cid colspan rowspan : Nat) : STable :=
  let rcells0 := (alook t.rows r).getD []
  let c := nextIndex rcells0
  let cell : SCell := ⟨cid, false, 0, colspan, rowspan⟩
  let rcells1 := ains rcells0 c cell
  let rcells2 := (List.range (colspan - 1)).foldl
    (fun acc i => ains acc (c + i + 1) (mkSpacer cid (i + 1))) rcells1
  let rows1 := ains t.rows r rcells2
  let rows2 := (List.range (rowspan - 1)).foldl
    (fun acc i =>
      ains acc (r + i + 1) (ains ((alook acc (r + i + 1)).getD []) c (mkSpacer cid (i + 1))))
    rows1
  let ccells0 := (alook t.cols c).getD []
  let ccells1 := ains ccells0 r cell
  let ccells2 := (List.range (rowspan - 1)).foldl
    (fun acc i => ains acc (r + i + 1) (mkSpacer cid (i + 1))) ccells1
  let cols1 := ains t.cols c ccells2
  let cols2 := (List.range (colspan - 1)).foldl
    (fun acc i =>
      ains acc (c + i + 1) (ains ((alook acc (c + i + 1)).getD []) r (mkSpacer cid (i + 1))))
    cols1
  ⟨rows2, cols2⟩

/-- The first free index `≥ i` of a cell dictionary (the `while i in cells:
i += 1` scan in `Table.add_row`).  Fuel `|cells| + 1` suffices: at most
`|cells|` indices are occupied. -/
def firstFreeGo (cells : List (Nat × SCell)) : Nat → Nat → Nat
  | 0, i => i
  | fuel + 1, i => if (alook cells i).isSome then firstFreeGo cells fuel (i + 1) else i

/-- The first free index `≥ i`. -/
def firstFree (cells : List (Nat × SCell)) (i : Nat) : Nat :=
  firstFreeGo cells (cells.length + 1) i

/-- The merge loop of `Table.add_row` (table.py lines 873-880): each new cell
is placed at the lowest free index at or after the previous placement,
leaving every pre-existing entry (in particular spacer cells) at its
position. -/
def mergeCells (acc : List (Nat × SCell)) (i : Nat) : List SCell → List (Nat × SCell)
  | [] => acc
  | c :: rest =>
    let j := firstFree acc i
    mergeCells (ains acc j c) j rest

/-- `Table.add_row` (table.py lines 858-881) restricted to the row dictionary
it mutates: the insertion index is the smallest of (a) the lowest row index
whose cells are all spacers (an empty dictionary counts), (b) `len(_rows)`
and (c) the next never-used key; the new row's cells are merged into whatever
occupies that index. -/
def add_row (rows : List (Nat × List (Nat × SCell))) (new : List SCell) :
    List (Nat × List (Nat × SCell)) :=
  let unfilled := (rows.filter (fun kv => kv.2.all (fun e => e.2.isSpacer))).map Prod.fst
  let index := min (minList (unfilled ++ [rows.length])) (nextIndex rows)
  let existing := (alook rows index).getD []
  let merged := mergeCells existing 0 new
  ains rows index merged

/-! ## Concrete instances

Small tables built exactly as the Python constructors would: `Table()`
defaults are `align=LEFT`, `padding=DiInt(0, 1, 0, 1)`, `border_line=ThinLine`,
`collapse_empty_borders=True`, `expand=False`; `Row()`/`Col()` and `Cell()`
default everything to unset/empty. -/

/-- A 1×1 table of one empty default cell with the `Table()` defaults. -/
def exTable1 : RTable :=
  ⟨[[defaultGCell]], [defaultAttrs], [defaultAttrs], .left, "",
   ⟨0, 1, 0, 1⟩, DiLineStyle.fromValue .thin, DiStr.fromValue "", true, false⟩

/-- A 1×2 table of empty default cells with the `Table()` defaults. -/
def exTable2 : RTable :=
  ⟨[[defaultGCell, defaultGCell]], [defaultAttrs], [defaultAttrs, defaultAttrs],
   .left, "", ⟨0, 1, 0, 1⟩, DiLineStyle.fromValue .thin, DiStr.fromValue "", true, false⟩

/-- A table with no rows and no columns (`Table()` with nothing added). -/
def exTableEmpty : RTable :=
  ⟨[], [], [], .left, "", ⟨0, 1, 0, 1⟩, DiLineStyle.fromValue .thin,
   DiStr.fromValue "", true, false⟩

/-- A 1×1 table whose only cell declares a thin border while the table
declares a thick one. -/
def exTableC1 : RTable :=
  { exTable1 with
    cells := [[{ defaultGCell with borderLine := DiLineStyle.fromValue .thin }]],
    borderLine := DiLineStyle.fromValue .thick }

/-- A 1×1 table whose only cell declares padding 1 while the table declares
padding 2. -/
def exTableC4 : RTable :=
  { exTable1 with
    cells := [[{ defaultGCell with padding := DiInt.fromValue 1 }]],
    padding := DiInt.fromValue 2 }

/-- A 1×1 table whose only cell declares border-style tag "cs" while the
table declares "ts", under the default visible thin border. -/
def exTableC4s : RTable :=
  { exTable1 with
    cells := [[{ defaultGCell with borderStyle := DiStr.fromValue "cs" }]],
    borderStyle := DiStr.fromValue "ts" }

/-- A structural table state holding one content cell at row 0, column 0
(cell identity 0). -/
def exSTable : STable :=
  ⟨[(0, [(0, ⟨0, false, 0, 1, 1⟩)])], [(0, [(0, ⟨0, false, 0, 1, 1⟩)])]⟩

/-- A row dictionary whose row 0 holds a content cell spanning two rows, so
row 1 holds only the generated spacer: the state after
`tbl.new_row(...).new_cell(rowspan=2)`. -/
def exRowsSpan : List (Nat × List (Nat × SCell)) :=
  [(0, [(0, ⟨7, false, 0, 1, 2⟩)]), (1, [(0, mkSpacer 7 1)])]

/-- A 1×2 table whose first cell spans both columns; position (0, 1) holds the
generated `SpacerCell`. -/
def exTableSpan : RTable :=
  { exTable2 with
    cells := [[{ defaultGCell with colspan := 2 },
               { defaultGCell with kind := .spacer (0, 0) 1 }]] }

/-- A 1×1 table with every border set to `NoLine`. -/
def exTableNoB : RTable :=
  { exTable1 with borderLine := DiLineStyle.fromValue .noLine }

/-! ## Claim C1: border-line resolution -/

/-- The per-edge fallback written as a first-match search. -/
theorem chain4_eq_firstNonNo (a b c d : LineStyle) :
    chain4 a b c d = firstNonNo [a, b, c, d] := by
  by_cases ha : a = .noLine <;> by_cases hb : b = .noLine <;> by_cases hc : c = .noLine <;>
    by_cases hd : d = .noLine <;>
    simp [chain4, firstNonNo, List.find?, ha, hb, hc, hd]

/-- C1 (counterexample): a cell declaring a thin top border inside a table
declaring a thick one resolves to thin, not to the maximum-severity thick, so
`computed_border_line` is not the per-edge maximum of the four levels. -/
theorem c1_max_severity_counterexample :
    ¬ (exTableC1.cblAt 0 0 = spec_max_border_line exTableC1.borderLine
      (exTableC1.rowAttr 0).borderLine (exTableC1.colAttr 0).borderLine
      (exTableC1.cellAt 0 0).borderLine) := by decide

/-- C1 (amended): for every attached cell resolved through
`Cell.computed_border_line`, each edge's line is the first non-`NoLine` value
in the order cell, row, column, table (a most-specific-first fallback chain),
not the maximum-severity value. -/
theorem c1_border_line_fallback_chain (t : RTable) (i j : Nat) :
    t.cblRaw i j =
      ⟨firstNonNo [(t.cellAt i j).borderLine.top, (t.rowAttr i).borderLine.top,
        (t.colAttr j).borderLine.top, t.borderLine.top],
       firstNonNo [(t.cellAt i j).borderLine.right, (t.rowAttr i).borderLine.right,
        (t.colAttr j).borderLine.right, t.borderLine.right],
       firstNonNo [(t.cellAt i j).borderLine.bottom, (t.rowAttr i).borderLine.bottom,
        (t.colAttr j).borderLine.bottom, t.borderLine.bottom],
       firstNonNo [(t.cellAt i j).borderLine.left, (t.rowAttr i).borderLine.left,
        (t.colAttr j).borderLine.left, t.borderLine.left]⟩ := by
  unfold RTable.cblRaw computed_border_line
  rw [chain4_eq_firstNonNo, chain4_eq_firstNonNo, chain4_eq_firstNonNo, chain4_eq_firstNonNo]

/-! ## Claim C4: per-edge attribute resolution -/

/-- C4 (counterexample): the walk-to-most-specific-level description fails for
two of the four attributes.  Padding: a cell declaring padding 1 inside a
table declaring 2 resolves to 2, not to the most specific set value 1.
Border style: a cell declaring the tag "cs" inside a table declaring "ts"
(edges visible under the default thin border) resolves to the concatenation
of all four levels' tags, not to the most specific set tag "cs". -/
theorem c4_chain_counterexample :
    ¬ (exTableC4.cpadAt 0 0 = spec_chain_padding exTableC4.padding
      (exTableC4.rowAttr 0).padding (exTableC4.colAttr 0).padding
      (exTableC4.cellAt 0 0).padding) ∧
    ¬ (exTableC4s.cbsAt 0 0 = spec_chain_border_style exTableC4s.borderStyle
      (exTableC4s.rowAttr 0).borderStyle (exTableC4s.colAttr 0).borderStyle
      (exTableC4s.cellAt 0 0).borderStyle) := by
  constructor
  · decide
  · decide

/-- C4 (amended): attribute resolution is a total function of the four
levels' settings, but only alignment and border lines walk cell → row →
column → table to the most specific set value (border lines per edge, as the
first non-`NoLine` value in that order).  Padding on each edge is the maximum
of all four levels' values and 0, and the border style of each edge is the
space-joined concatenation of the table's, row's, column's and cell's tags
when the edge's resolved line is visible, and empty otherwise
(`Cell.computed_border_style`, table.py lines 256-279) — neither is a
most-specific-first chain. -/
theorem c4_resolution_total (tp rp cp lp : DiInt) (la ra ca : Option Align) (ta : Align)
    (tb rb cb lb : DiLineStyle) (t : RTable) (i j : Nat) :
    computed_padding tp rp cp lp =
      ⟨List.foldr max 0 [tp.top, rp.top, cp.top, lp.top],
       List.foldr max 0 [tp.right, rp.right, cp.right, lp.right],
       List.foldr max 0 [tp.bottom, rp.bottom, cp.bottom, lp.bottom],
       List.foldr max 0 [tp.left, rp.left, cp.left, lp.left]⟩ ∧
    computed_align la ra ca ta = ((la.orElse fun _ => ra).orElse fun _ => ca).getD ta ∧
    computed_border_line tb rb cb lb =
      ⟨firstNonNo [lb.top, rb.top, cb.top, tb.top],
       firstNonNo [lb.right, rb.right, cb.right, tb.right],
       firstNonNo [lb.bottom, rb.bottom, cb.bottom, tb.bottom],
       firstNonNo [lb.left, rb.left, cb.left, tb.left]⟩ ∧
    t.cbsRaw i j =
      ⟨if (t.cblRaw i j).top.visible then
          joinSpace [t.borderStyle.top, (t.rowAttr i).borderStyle.top,
            (t.colAttr j).borderStyle.top, (t.cellAt i j).borderStyle.top]
        else "",
       if (t.cblRaw i j).right.visible then
          joinSpace [t.borderStyle.right, (t.rowAttr i).borderStyle.right,
            (t.colAttr j).borderStyle.right, (t.cellAt i j).borderStyle.right]
        else "",
       if (t.cblRaw i j).bottom.visible then
          joinSpace [t.borderStyle.bottom, (t.rowAttr i).borderStyle.bottom,
            (t.colAttr j).borderStyle.bottom, (t.cellAt i j).borderStyle.bottom]
        else "",
       if (t.cblRaw i j).left.visible then
          joinSpace [t.borderStyle.left, (t.rowAttr i).borderStyle.left,
            (t.colAttr j).borderStyle.left, (t.cellAt i j).borderStyle.left]
        else ""⟩ := by
  refine ⟨?_, ?_, ?_, ?_⟩
  · unfold computed_padding
    simp [List.foldr, max_assoc]
  · cases la <;> cases ra <;> cases ca <;> rfl
  · unfold computed_border_line
    rw [chain4_eq_firstNonNo, chain4_eq_firstNonNo, chain4_eq_firstNonNo,
      chain4_eq_firstNonNo]
  · rfl

/-! ## Claim C7: spacer cells hide interior seams -/

/-- C7: every `SpacerCell` forces the interior seam edge invisible: its
computed left border is the invisible line whenever the expanding cell spans
columns, and its computed top border is the invisible line whenever the
expanding cell spans rows, whatever borders the expanding cell declares. -/
theorem c7_spacer_seam_invisible (t : RTable) (i j : Nat) (o : Nat × Nat) (si : Nat)
    (hk : (t.cellAt i j).kind = .spacer o si) :
    (1 < (t.cellAt o.1 o.2).colspan → (t.cblAt i j).left = .invisible) ∧
    (1 < (t.cellAt o.1 o.2).rowspan → (t.cblAt i j).top = .invisible) := by
  unfold RTable.cblAt
  rw [hk]
  constructor <;> intro h
  · by_cases h2 : 1 < (t.cellAt o.1 o.2).rowspan <;> simp [spacer_border_line, h, h2]
  · by_cases h3 : 1 < (t.cellAt o.1 o.2).colspan <;> simp [spacer_border_line, h, h3]

/-- C7 (witness): in the concrete colspan-2 table the spacer at position
(0, 1) has an invisible computed left border. -/
theorem c7_witness : (exTableSpan.cblAt 0 1).left = .invisible :=
  (c7_spacer_seam_invisible exTableSpan 0 1 (0, 0) 1 (by decide)).1 (by decide)

/-! ## Width negotiation lemmas -/

/-- A fold that always keeps either the accumulator or the next element stays
inside the candidate list. -/
theorem foldl_choice_mem (f : Nat → Nat → Nat) (hf : ∀ b j, f b j = b ∨ f b j = j) :
    ∀ (rest : List Nat) (c : Nat), rest.foldl f c ∈ c :: rest := by
  intro rest
  induction rest with
  | nil => intro c; simp
  | cons j rest ih =>
    intro c
    have hmem := ih (f c j)
    rw [List.foldl_cons]
    rcases List.mem_cons.mp hmem with h2 | h2
    · rcases hf c j with h | h
      · rw [h2, h]; exact List.mem_cons_self _ _
      · rw [h2, h]; exact List.mem_cons_of_mem _ (List.mem_cons_self _ _)
    · exact List.mem_cons_of_mem _ (List.mem_cons_of_mem _ h2)

/-- The index picked by the expansion step lies in the candidate list. -/
theorem argminBy_mem (ws : List Int) (cand : List Nat) (h : cand ≠ []) :
    argminBy ws cand ∈ cand := by
  match cand with
  | [] => exact absurd rfl h
  | c :: rest =>
    exact foldl_choice_mem (fun best j => if ws.getD j 0 < ws.getD best 0 then j else best)
      (fun b j => by dsimp only; split <;> simp) rest c

/-- The index picked by the contraction step is in range. -/
theorem argmaxIdx_lt (ws : List Int) (h : ws ≠ []) : argmaxIdx ws < ws.length := by
  have hpos : 0 < ws.length := List.length_pos_of_ne_nil h
  have hne : List.range ws.length ≠ [] := by
    simp only [ne_eq, List.range_eq_nil]
    omega
  have := argminBy_mem (ws.map (fun v => -v)) (List.range ws.length) hne
  unfold argmaxIdx
  exact List.mem_range.mp this

/-- Incrementing one in-range entry raises the sum by exactly one. -/
theorem sum_set_succ (ws : List Int) (i : Nat) (h : i < ws.length) :
    (ws.set i (ws.getD i 0 + 1)).sum = ws.sum + 1 := by
  rw [List.sum_set']
  rw [dif_pos h, List.getD_eq_getElem ws 0 h]
  ring

/-- Decrementing one in-range entry lowers the sum by exactly one. -/
theorem sum_set_pred (ws : List Int) (i : Nat) (h : i < ws.length) :
    (ws.set i (ws.getD i 0 - 1)).sum = ws.sum - 1 := by
  rw [List.sum_set']
  rw [dif_pos h, List.getD_eq_getElem ws 0 h]
  ring

/-- One expansion iteration adds exactly one unit of width. -/
theorem bumpUp_sum (cand : List Nat) (ws : List Int) (hc : cand ≠ [])
    (hsub : ∀ j ∈ cand, j < ws.length) :
    (bumpUp cand ws).sum = ws.sum + 1 :=
  sum_set_succ ws _ (hsub _ (argminBy_mem ws cand hc))

/-- One contraction iteration removes exactly one unit of width. -/
theorem bumpDown_sum (ws : List Int) (h : ws ≠ []) :
    (bumpDown ws).sum = ws.sum - 1 :=
  sum_set_pred ws _ (argmaxIdx_lt ws h)

/-- Expansion steps preserve the number of columns. -/
theorem bumpUp_length (cand : List Nat) (ws : List Int) :
    (bumpUp cand ws).length = ws.length := by
  unfold bumpUp; exact List.length_set ..

/-- Contraction steps preserve the number of columns. -/
theorem bumpDown_length (ws : List Int) : (bumpDown ws).length = ws.length := by
  unfold bumpDown; exact List.length_set ..

/-- The expansion loop preserves the number of columns. -/
theorem expandGo_length (B maxW : Int) (cand : List Nat) :
    ∀ (f : Nat) (ws : List Int), (expandGo B maxW cand f ws).length = ws.length := by
  intro f
  induction f with
  | zero => intro ws; rfl
  | succ f ih =>
    intro ws
    unfold expandGo
    split
    · rw [ih, bumpUp_length]
    · rfl

/-- The contraction loop preserves the number of columns. -/
theorem contractGo_length (B maxW : Int) :
    ∀ (f : Nat) (ws : List Int), (contractGo B maxW f ws).length = ws.length := by
  intro f
  induction f with
  | zero => intro ws; rfl
  | succ f ih =>
    intro ws
    unfold contractGo
    split
    · rw [ih, bumpDown_length]
    · rfl

/-- With exactly `(maxW - total).toNat` units of fuel the expansion loop
raises the total width to the target whenever it starts below it, one unit per
iteration, and leaves it unchanged otherwise. -/
theorem expandGo_total (B maxW : Int) (cand : List Nat) (hc : cand ≠ []) :
    ∀ (f : Nat) (ws : List Int), (∀ j ∈ cand, j < ws.length) →
      f = (maxW - (B + ws.sum)).toNat →
      B + (expandGo B maxW cand f ws).sum = max (B + ws.sum) maxW := by
  intro f
  induction f with
  | zero =>
    intro ws _ hf
    have : maxW ≤ B + ws.sum := by omega
    unfold expandGo
    omega
  | succ f ih =>
    intro ws hsub hf
    have hlt : B + ws.sum < maxW := by omega
    unfold expandGo
    rw [if_pos hlt]
    have hsum := bumpUp_sum cand ws hc hsub
    have hlen : ∀ j ∈ cand, j < (bumpUp cand ws).length := by
      intro j hj; rw [bumpUp_length]; exact hsub j hj
    rw [ih (bumpUp cand ws) hlen (by omega)]
    omega

/-- With exactly `(total - maxW).toNat` units of fuel the contraction loop
lowers the total width to the target whenever it starts above it, one unit per
iteration, and leaves it unchanged otherwise. -/
theorem contractGo_total (B maxW : Int) :
    ∀ (f : Nat) (ws : List Int), ws ≠ [] →
      f = (B + ws.sum - maxW).toNat →
      B + (contractGo B maxW f ws).sum = min (B + ws.sum) maxW := by
  intro f
  induction f with
  | zero =>
    intro ws _ hf
    have : B + ws.sum ≤ maxW := by omega
    unfold contractGo
    omega
  | succ f ih =>
    intro ws hne hf
    have hgt : maxW < B + ws.sum := by omega
    unfold contractGo
    rw [if_pos hgt]
    have hsum := bumpDown_sum ws hne
    have hne2 : bumpDown ws ≠ [] := by
      have := bumpDown_length ws
      intro h
      rw [h] at this
      exact hne (List.eq_nil_of_length_eq_zero this.symm)
    rw [ih (bumpDown ws) hne2 (by omega)]
    omega

/-- `expand(target)` brings the total width to the clamped target
`max(target, n * min_col_width)` when starting below it. -/
theorem expandW_total (B target mcw : Int) (cand : List Nat) (ws : List Int)
    (hc : cand ≠ []) (hsub : ∀ j ∈ cand, j < ws.length) :
    B + (expandW B target mcw cand ws).sum =
      max (B + ws.sum) (max target (mcw * (ws.length : Int))) :=
  expandGo_total B _ cand hc _ ws hsub rfl

/-- `contract(target)` brings the total width down to the clamped target
`max(target, n * min_col_width)` when starting above it. -/
theorem contractW_total (B target mcw : Int) (ws : List Int) (hne : ws ≠ []) :
    B + (contractW B target mcw ws).sum =
      min (B + ws.sum) (max target (mcw * (ws.length : Int))) :=
  contractGo_total B _ _ ws hne rfl

/-- `expand` preserves the number of columns. -/
theorem expandW_length (B target mcw : Int) (cand : List Nat) (ws : List Int) :
    (expandW B target mcw cand ws).length = ws.length :=
  expandGo_length ..

/-- `contract` preserves the number of columns. -/
theorem contractW_length (B target mcw : Int) (ws : List Int) :
    (contractW B target mcw ws).length = ws.length :=
  contractGo_length ..

/-- A fold of `max` over integers starting at 0 is nonnegative. -/
theorem foldr_max_nonneg (l : List Int) : 0 ≤ l.foldr max 0 := by
  induction l with
  | nil => exact le_refl 0
  | cons x xs ih => exact le_max_of_le_right ih

/-- Natural text widths are nonnegative. -/
theorem max_line_width_nonneg (s : String) : 0 ≤ max_line_width s :=
  foldr_max_nonneg _

/-- The accumulator never exceeds a `max` fold. -/
theorem le_foldl_max (l : List Int) : ∀ b : Int, b ≤ l.foldl max b := by
  induction l with
  | nil => intro b; exact le_refl b
  | cons x xs ih => intro b; exact le_trans (le_max_left b x) (ih (max b x))

/-- `listMaxD` of a list of nonnegative values is nonnegative. -/
theorem listMaxD_nonneg (l : List Int) (h : ∀ x ∈ l, 0 ≤ x) : 0 ≤ listMaxD l := by
  match l with
  | [] => exact le_refl 0
  | x :: xs =>
    exact le_trans (h x (List.mem_cons_self x xs)) (le_foldl_max xs x)

/-- Computed horizontal padding is nonnegative (each edge is a `max` with 0). -/
theorem cpad_lr_nonneg (t : RTable) (i j : Nat) :
    0 ≤ (t.cpadAt i j).left ∧ 0 ≤ (t.cpadAt i j).right := by
  unfold RTable.cpadAt computed_padding
  exact ⟨le_max_right _ _, le_max_right _ _⟩

/-- Computed widths are nonnegative when every explicit cell width is. -/
theorem computedWidth_nonneg (t : RTable) (i j : Nat)
    (hw : ∀ v, (t.cellAt i j).width = some v → 0 ≤ v) :
    0 ≤ t.computedWidth i j := by
  unfold RTable.computedWidth
  dsimp only
  split
  · exact le_refl 0
  · cases hv : (t.cellAt i j).width with
    | none => simp [hv, max_line_width_nonneg]
    | some v =>
      simp only [hv]
      split
      · exact max_line_width_nonneg _
      · exact hw v hv

/-- Inner widths are nonnegative when every explicit cell width is. -/
theorem innerWidth_nonneg (t : RTable) (i j : Nat)
    (hw : ∀ v, (t.cellAt i j).width = some v → 0 ≤ v) :
    0 ≤ t.innerWidth i j := by
  unfold RTable.innerWidth
  dsimp only
  split
  · exact le_refl 0
  · have h1 := computedWidth_nonneg t i j hw
    have h2 := cpad_lr_nonneg t i j
    omega

/-- Seed column widths are nonnegative when every explicit cell width is. -/
theorem seedWidths_nonneg (t : RTable)
    (hw : ∀ i j v, (t.cellAt i j).width = some v → 0 ≤ v) :
    ∀ x ∈ t.seedWidths, 0 ≤ x := by
  intro x hx
  unfold RTable.seedWidths at hx
  rcases List.mem_map.mp hx with ⟨j, _, rfl⟩
  refine listMaxD_nonneg _ ?_
  intro y hy
  rcases List.mem_map.mp hy with ⟨i, _, rfl⟩
  exact innerWidth_nonneg t i j (hw i j)

/-- Computed border widths are nonnegative (each edge is 0 or 1). -/
theorem cbw_nonneg (t : RTable) (i j : Nat) :
    0 ≤ (t.cbwAt i j).right ∧ 0 ≤ (t.cbwAt i j).left := by
  unfold RTable.cbwAt
  split
  · constructor <;> dsimp only <;> split <;> omega
  · exact ⟨by simp [DiInt.fromValue], by simp [DiInt.fromValue]⟩

/-- The border contribution to the total width is nonnegative. -/
theorem borderSum_nonneg (t : RTable) : 0 ≤ t.borderSum := by
  unfold RTable.borderSum
  have h1 : 0 ≤ ((List.range t.ncols).map (fun j => (t.cbwAt 0 j).right)).sum := by
    refine List.sum_nonneg ?_
    intro x hx
    rcases List.mem_map.mp hx with ⟨j, _, rfl⟩
    exact (cbw_nonneg t 0 j).1
  have h2 := (cbw_nonneg t 0 0).2
  omega

/-- The seed widths list one width per column. -/
theorem seedWidths_length (t : RTable) : t.seedWidths.length = t.ncols := by
  simp [RTable.seedWidths]

/-! ## Claim C10: width negotiation is total -/

/-- `calculate_col_widths` succeeds on every table with at least one row and
one column (helper shared by several claims). -/
theorem calc_isSome (t : RTable) (w : Dim) (h1 : 1 ≤ t.nrows) (h2 : 1 ≤ t.ncols) :
    ∃ ws, t.calculate_col_widths w = some ws ∧ ws.length = t.ncols := by
  unfold RTable.calculate_col_widths RTable.calc_col_widths
  rw [if_neg (by omega)]
  refine ⟨_, rfl, ?_⟩
  have hseed := seedWidths_length t
  cases w.preferred with
  | some p =>
    dsimp only
    split_ifs <;> simp [expandW_length, contractW_length, hseed]
  | none =>
    cases w.max with
    | some m =>
      dsimp only
      split_ifs <;> simp [expandW_length, contractW_length, hseed]
    | none =>
      cases w.min with
      | some mn =>
        dsimp only
        split_ifs <;> simp [expandW_length, contractW_length, hseed]
      | none => exact hseed

/-- C10: width negotiation is a total function on every table with at least
one column, each column holding at least one cell (equivalently, at least one
row): it returns one width per column, the expansion step raising and the
contraction step lowering the total by exactly one unit per iteration. -/
theorem c10_width_negotiation_total (t : RTable) (w : Dim)
    (h1 : 1 ≤ t.nrows) (h2 : 1 ≤ t.ncols) :
    (∃ ws, t.calculate_col_widths w = some ws ∧ ws.length = t.ncols) ∧
    (∀ cand ws, cand ≠ [] → (∀ j ∈ cand, j < ws.length) →
      (bumpUp cand ws).sum = ws.sum + 1) ∧
    (∀ ws : List Int, ws ≠ [] → (bumpDown ws).sum = ws.sum - 1) :=
  ⟨calc_isSome t w h1 h2, bumpUp_sum, bumpDown_sum⟩

/-- C10 (witness): negotiation succeeds on the concrete 1×1 table. -/
theorem c10_witness :
    (∃ ws, exTable1.calculate_col_widths (Dim.exact 10) = some ws ∧
      ws.length = exTable1.ncols) ∧
    (∀ cand ws, cand ≠ [] → (∀ j ∈ cand, j < ws.length) →
      (bumpUp cand ws).sum = ws.sum + 1) ∧
    (∀ ws : List Int, ws ≠ [] → (bumpDown ws).sum = ws.sum - 1) :=
  c10_width_negotiation_total exTable1 (Dim.exact 10) (by decide) (by decide)

/-! ## Claim C2: the minimum-column-width floor -/

/-- C2 (counterexample): the 1×2 table of empty cells has natural total width
7 (column widths 2 + 2 and three borders); requested at target width 0 it
stays at 7, so the claimed lower bound of 8 on the resulting total width does
not hold. -/
theorem c2_counterexample :
    exTable2.calculate_col_widths (Dim.exact 0) = some [2, 2] ∧
    ¬ (8 ≤ exTable2.borderSum + ([2, 2] : List Int).sum) := by
  constructor
  · decide
  · decide

/-- Every cell position of `exTable2` is width-unpinned. -/
theorem exTable2_width_none : ∀ i j : Nat, (exTable2.cellAt i j).width = none
  | 0, 0 => rfl
  | 0, 1 => rfl
  | 0, _ + 2 => rfl
  | _ + 1, _ => rfl

/-- C2 (amended): for every 2-column table (with a row, and no negative
explicit cell widths) requested at target width 0, the minimum-columns floor
`2 * 4 = 8` binds only the contraction: the resulting total width is
`min(natural total, 8)`—contraction stops at 8, but a table naturally narrower
than 8 keeps its width; no error is raised. -/
theorem c2_width_floor_clamps (t : RTable) (h1 : 1 ≤ t.nrows) (h2 : t.ncols = 2)
    (hw : ∀ i j v, (t.cellAt i j).width = some v → 0 ≤ v) :
    ∃ ws, t.calculate_col_widths (Dim.exact 0) = some ws ∧
      t.borderSum + ws.sum = min (t.borderSum + t.seedWidths.sum) 8 := by
  unfold RTable.calculate_col_widths RTable.calc_col_widths Dim.exact
  rw [if_neg (by omega)]
  refine ⟨_, rfl, ?_⟩
  dsimp only
  have hsum : 0 ≤ t.seedWidths.sum := List.sum_nonneg (seedWidths_nonneg t hw)
  have hB := borderSum_nonneg t
  have hlen : t.seedWidths.length = 2 := by rw [seedWidths_length, h2]
  have hne : t.seedWidths ≠ [] := by
    intro h
    rw [h] at hlen
    simp at hlen
  rw [if_neg (by omega)]
  by_cases hgt : (0 : Int) < t.borderSum + t.seedWidths.sum
  · rw [if_pos hgt, contractW_total t.borderSum 0 4 t.seedWidths hne, hlen]
    norm_num
  · rw [if_neg hgt]
    omega

/-- C2 (witness): the amended statement at the concrete 1×2 table. -/
theorem c2_witness :
    ∃ ws, exTable2.calculate_col_widths (Dim.exact 0) = some ws ∧
      exTable2.borderSum + ws.sum = min (exTable2.borderSum + exTable2.seedWidths.sum) 8 :=
  c2_width_floor_clamps exTable2 (by decide) (by decide)
    (fun i j v h => by rw [exTable2_width_none i j] at h; cases h)

/-! ## Claim C3: rendering a table with no rows -/

/-- C3: `render` on a table with no rows does not return the empty sequence;
it fails, because `_calculate_col_widths` evaluates `total_width` before the
no-rows guard and that indexes `cols[0]` and `cells[0]` of the empty
containers (an `IndexError` in the source, modelled as `none`). -/
theorem c3_empty_table_render_fails (t : RTable) (w : Dim) (h : t.cells = []) :
    t.render w = none := by
  unfold RTable.render RTable.calculate_col_widths RTable.calc_col_widths
  have h0 : t.nrows = 0 := by simp [RTable.nrows, h]
  rw [if_pos (Or.inl h0)]

/-- C3 (witness): the failure at the concrete empty table. -/
theorem c3_witness : exTableEmpty.render (Dim.exact 10) = none :=
  c3_empty_table_render_fails exTableEmpty (Dim.exact 10) rfl

/-! ## Claim C9: fully blank boundaries collapse -/

/-- A horizontal edge resolved from `NoLine` on both adjoining edges draws a
blank. -/
theorem borderEdgeChar_blank (t : RTable) (refA refB : Nat → CellRef) (i : Nat)
    (hn : (t.cblRef (refA (i + 1))).bottom = .noLine)
    (hs : (t.cblRef (refB (i + 1))).top = .noLine) :
    (t.borderEdgeChar refA refB i).isWhitespace = true := by
  unfold RTable.borderEdgeChar get_horizontal_edge
  rw [hn, hs]
  decide

/-- C9: if collapsing is enabled and every horizontal edge segment of a row
boundary resolves from the "no line" style on both adjoining edges (the
bottom borders of the row above and the top borders of the row below; a
missing row contributes detached `DummyCell`s, which always resolve to
`NoLine`), then `draw_border_row` returns the empty sequence. -/
theorem c9_blank_boundary_collapses (t : RTable) (a b : Option Nat) (cw : List Int)
    (ha : ∀ r, a = some r → ∀ j, j < t.rowLen r → (t.cblAt r j).bottom = .noLine)
    (hb : ∀ r, b = some r → ∀ j, j < t.rowLen r → (t.cblAt r j).top = .noLine) :
    t.draw_border_row a b cw true = [] := by
  unfold RTable.draw_border_row
  dsimp only
  split
  · rfl
  · next hcond =>
    exfalso
    apply hcond
    refine ⟨rfl, ?_⟩
    rw [List.all_eq_true]
    intro c hc
    rcases List.mem_map.mp hc with ⟨i, hi, rfl⟩
    refine borderEdgeChar_blank t _ _ i ?_ ?_
    · cases a with
      | none => rfl
      | some r =>
        dsimp only
        split
        · next hin =>
          exact ha r rfl i (by omega)
        · rfl
    · cases b with
      | none =>
        cases a with
        | none => rfl
        | some r => rfl
      | some r =>
        dsimp only
        split
        · next hin =>
          exact hb r rfl i (by omega)
        · rfl

/-- C9 (witness): the bottom boundary of the 1×1 all-`NoLine` table collapses
to nothing. -/
theorem c9_witness : exTableNoB.draw_border_row (some 0) none [2] true = [] :=
  c9_blank_boundary_collapses exTableNoB (some 0) none [2]
    (fun r hr j hj => by
      cases hr
      have h1 : exTableNoB.rowLen 0 = 1 := rfl
      rw [h1] at hj
      have h2 : j = 0 := by omega
      subst h2
      decide)
    (fun r hr => nomatch hr)

/-! ## Association-list lemmas -/

/-- Lookup after assignment at the same key. -/
theorem alook_ains_self : ∀ (l : List (Nat × α)) (k : Nat) (v : α),
    alook (ains l k v) k = some v
  | [], k, v => by simp [ains, alook]
  | (k0, v0) :: rest, k, v => by
    unfold ains
    by_cases h : k0 = k
    · rw [if_pos h]
      unfold alook
      rw [if_pos h]
    · rw [if_neg h]
      unfold alook
      rw [if_neg h]
      exact alook_ains_self rest k v

/-- Lookup after assignment at a different key. -/
theorem alook_ains_ne : ∀ (l : List (Nat × α)) (k k2 : Nat) (v : α), k ≠ k2 →
    alook (ains l k v) k2 = alook l k2
  | [], k, k2, v, h => by simp [ains, alook, h]
  | (k0, v0) :: rest, k, k2, v, h => by
    unfold ains
    by_cases h0 : k0 = k
    · rw [if_pos h0]
      unfold alook
      rw [if_neg (h0 ▸ h), if_neg (h0 ▸ h)]
    · rw [if_neg h0]
      unfold alook
      by_cases h2 : k0 = k2
      · rw [if_pos h2, if_pos h2]
      · rw [if_neg h2, if_neg h2]
        exact alook_ains_ne rest k k2 v h

/-- A successful lookup's entry is in the list. -/
theorem alook_mem : ∀ (l : List (Nat × α)) (k : Nat) (v : α),
    alook l k = some v → (k, v) ∈ l
  | [], k, v, h => by cases h
  | (k0, v0) :: rest, k, v, h => by
    unfold alook at h
    by_cases h0 : k0 = k
    · rw [if_pos h0] at h
      cases h
      subst h0
      exact List.mem_cons_self ..
    · rw [if_neg h0] at h
      exact List.mem_cons_of_mem _ (alook_mem rest k v h)

/-- A key that looks up successfully is among the keys. -/
theorem alook_isSome_mem (l : List (Nat × α)) (k : Nat) (h : (alook l k).isSome) :
    k ∈ akeys l := by
  rcases Option.isSome_iff_exists.mp h with ⟨v, hv⟩
  exact List.mem_map.mpr ⟨(k, v), alook_mem l k v hv, rfl⟩

/-- With distinct keys, membership determines the lookup. -/
theorem alook_eq_of_mem_nodup : ∀ (l : List (Nat × α)) (k : Nat) (v : α),
    (akeys l).Nodup → (k, v) ∈ l → alook l k = some v
  | [], k, v, _, hm => by cases hm
  | (k0, v0) :: rest, k, v, hnd, hm => by
    unfold alook
    rcases List.mem_cons.mp hm with h | h
    · cases h
      rw [if_pos rfl]
    · have hk : k ∈ akeys rest := List.mem_map.mpr ⟨(k, v), h, rfl⟩
      have h0 : k0 ≠ k := by
        intro he
        exact (List.nodup_cons.mp hnd).1 (he ▸ hk)
      rw [if_neg h0]
      exact alook_eq_of_mem_nodup rest k v (List.nodup_cons.mp hnd).2 h

/-- The free-index scan returns a free index as soon as one exists within its
fuel. -/
theorem firstFreeGo_free (acc : List (Nat × SCell)) :
    ∀ (f i : Nat), (∃ j, i ≤ j ∧ j < i + f ∧ alook acc j = none) →
      alook acc (firstFreeGo acc f i) = none := by
  intro f
  induction f with
  | zero =>
    intro i h
    obtain ⟨j, h1, h2, _⟩ := h
    omega
  | succ f ih =>
    intro i hex
    unfold firstFreeGo
    split
    · next hocc =>
      apply ih
      obtain ⟨j, h1, h2, h3⟩ := hex
      refine ⟨j, ?_, by omega, h3⟩
      rcases Nat.eq_or_lt_of_le h1 with rfl | h
      · rw [h3] at hocc
        simp at hocc
      · omega
    · next hocc =>
      simpa using hocc

/-- `firstFree` always lands on a free index: among `|acc| + 1` consecutive
indices at most `|acc|` can be occupied. -/
theorem firstFree_free (acc : List (Nat × SCell)) (i : Nat) :
    alook acc (firstFree acc i) = none := by
  apply firstFreeGo_free
  by_contra hno
  push_neg at hno
  have hsub : ((List.range (acc.length + 1)).map (i + ·)) ⊆ akeys acc := by
    intro x hx
    rcases List.mem_map.mp hx with ⟨m, hm, rfl⟩
    have hmem := hno (i + m) (by omega) (by have := List.mem_range.mp hm; omega)
    exact alook_isSome_mem _ _ (Option.isSome_iff_ne_none.mpr hmem)
  have hnd : ((List.range (acc.length + 1)).map (i + ·)).Nodup := by
    refine List.Nodup.map ?_ (List.nodup_range _)
    intro a b hab
    simp only at hab
    omega
  have hlen := (List.subperm_of_subset hnd hsub).length_le
  simp [akeys] at hlen

/-- The merge loop of `add_row` never overwrites an existing entry: it only
assigns at free indices. -/
theorem mergeCells_preserves (new : List SCell) :
    ∀ (acc : List (Nat × SCell)) (i k : Nat) (v : SCell),
      alook acc k = some v → alook (mergeCells acc i new) k = some v := by
  induction new with
  | nil => intro acc i k v h; exact h
  | cons c rest ih =>
    intro acc i k v h
    unfold mergeCells
    apply ih
    have hfree := firstFree_free acc i
    have hne : firstFree acc i ≠ k := by
      intro he
      rw [he, h] at hfree
      cases hfree
    rw [alook_ains_ne _ _ _ _ hne]
    exact h

/-- `minList` never exceeds a member. -/
theorem minList_le_of_mem : ∀ (l : List Nat) (x : Nat), x ∈ l → minList l ≤ x := by
  have haux : ∀ (l : List Nat) (b : Nat), l.foldl min b ≤ b ∧ ∀ x ∈ l, l.foldl min b ≤ x := by
    intro l
    induction l with
    | nil => intro b; exact ⟨le_refl b, by intro x hx; cases hx⟩
    | cons y ys ih =>
      intro b
      rw [List.foldl_cons]
      refine ⟨le_trans (ih (min b y)).1 (min_le_left b y), ?_⟩
      intro x hx
      rcases List.mem_cons.mp hx with rfl | hx
      · exact le_trans (ih (min b x)).1 (min_le_right b x)
      · exact (ih (min b y)).2 x hx
  intro l x hx
  match l, hx with
  | y :: ys, hx =>
    rcases List.mem_cons.mp hx with rfl | hx2
    · exact (haux ys x).1
    · exact (haux ys y).2 x hx2

/-- `minList` of a nonempty list is a member. -/
theorem minList_mem (l : List Nat) (h : l ≠ []) : minList l ∈ l := by
  match l with
  | y :: ys => exact foldl_choice_mem min (fun b j => min_choice b j) ys y

/-- The fold computing `nextIndex` is constant once the initial value
dominates. -/
theorem foldr_nextIndex_const (l : List Nat) :
    ∀ b : Nat, (∀ k ∈ l, k + 1 ≤ b) → l.foldr (fun k a => max (k + 1) a) b = b := by
  induction l with
  | nil => intro b _; rfl
  | cons y ys ih =>
    intro b hb
    rw [List.foldr_cons, ih b (fun k hk => hb k (List.mem_cons_of_mem _ hk))]
    exact max_eq_right (hb y (List.mem_cons_self ..))

/-- The next never-used index over the keys `0..n-1` is `n`. -/
theorem range_nextIndex (n : Nat) :
    (List.range n).foldr (fun k a => max (k + 1) a) 0 = n := by
  induction n with
  | zero => rfl
  | succ n ih =>
    rw [List.range_succ, List.foldr_append]
    have h1 : List.foldr (fun k a => max (k + 1) a) 0 [n] = n + 1 := by
      simp
    rw [h1, foldr_nextIndex_const]
    intro k hk
    have := List.mem_range.mp hk
    omega

/-- For a table whose row keys are exactly `0..n-1`, `max(keys)+1 = n`. -/
theorem nextIndex_dense (rows : List (Nat × α))
    (h : akeys rows = List.range rows.length) : nextIndex rows = rows.length := by
  unfold nextIndex
  rw [h]
  exact range_nextIndex rows.length

/-! ## Claim C5: `add_row` insertion and merging -/

/-- C5 (counterexample): starting from a table whose row 1 holds only the
spacer generated by a rowspan-2 cell, adding a new one-cell row lands at
index 1, but the pre-existing spacer keeps position 0 and the new cell is
shifted to position 1 — the new cell does not take priority at its position. -/
theorem c5_counterexample :
    alook ((alook (add_row exRowsSpan [⟨9, false, 0, 1, 1⟩]) 1).getD []) 0
      = some (mkSpacer 7 1) ∧
    alook ((alook (add_row exRowsSpan [⟨9, false, 0, 1, 1⟩]) 1).getD []) 1
      = some ⟨9, false, 0, 1, 1⟩ ∧
    ¬ alook ((alook (add_row exRowsSpan [⟨9, false, 0, 1, 1⟩]) 1).getD []) 0
      = some ⟨9, false, 0, 1, 1⟩ := by
  refine ⟨?_, ?_, ?_⟩ <;> decide

/-- C5 (amended): for every table with dense row keys, `add_row` picks the
lowest row index whose existing cells are all `SpacerCell`s (at most the
append index `len(rows)`, which is used when no such index exists), leaves
every other row untouched, and merges by placing each new cell at the lowest
free position — pre-existing spacer cells keep their positions (they take
priority over the new cells, which shift past them). -/
theorem c5_add_row_characterization (rows : List (Nat × List (Nat × SCell)))
    (new : List SCell) (hdense : akeys rows = List.range rows.length) :
    ∃ k, k ≤ rows.length ∧
      (∀ i cells, alook rows i = some cells →
        cells.all (fun e => e.2.isSpacer) = true → k ≤ i) ∧
      (k = rows.length ∨ ∃ cells, alook rows k = some cells ∧
        cells.all (fun e => e.2.isSpacer) = true) ∧
      (∀ i, i ≠ k → alook (add_row rows new) i = alook rows i) ∧
      (∀ i v, alook ((alook rows k).getD []) i = some v →
        ∃ cells, alook (add_row rows new) k = some cells ∧ alook cells i = some v) := by
  have hstep : ∃ k m, add_row rows new = ains rows k m ∧
      k = min (minList ((rows.filter (fun kv => kv.2.all (fun e => e.2.isSpacer))).map
        Prod.fst ++ [rows.length])) (nextIndex rows) ∧
      m = mergeCells ((alook rows k).getD []) 0 new :=
    ⟨_, _, rfl, rfl, rfl⟩
  obtain ⟨k, m, hrw, hk, hm⟩ := hstep
  have hnd : (akeys rows).Nodup := by
    rw [hdense]
    exact List.nodup_range _
  have hnext := nextIndex_dense rows hdense
  have hminle : minList ((rows.filter (fun kv => kv.2.all (fun e => e.2.isSpacer))).map
      Prod.fst ++ [rows.length]) ≤ rows.length :=
    minList_le_of_mem _ _ (List.mem_append_right _ (List.mem_singleton.mpr rfl))
  have hkeq : k = minList ((rows.filter (fun kv => kv.2.all (fun e => e.2.isSpacer))).map
      Prod.fst ++ [rows.length]) := by
    rw [hk, hnext]
    exact min_eq_left hminle
  refine ⟨k, ?_, ?_, ?_, ?_, ?_⟩
  · rw [hkeq]
    exact hminle
  · intro i cells hlook hall
    rw [hkeq]
    apply minList_le_of_mem
    apply List.mem_append_left
    exact List.mem_map.mpr
      ⟨(i, cells), List.mem_filter.mpr ⟨alook_mem rows i cells hlook, hall⟩, rfl⟩
  · have hne : ((rows.filter (fun kv => kv.2.all (fun e => e.2.isSpacer))).map
        Prod.fst ++ [rows.length]) ≠ [] := by simp
    have hmem := minList_mem _ hne
    rw [← hkeq] at hmem
    rcases List.mem_append.mp hmem with h | h
    · right
      rcases List.mem_map.mp h with ⟨⟨k1, cells⟩, hf, hfst⟩
      simp only at hfst
      subst hfst
      rcases List.mem_filter.mp hf with ⟨hmemrows, hpred⟩
      exact ⟨cells, alook_eq_of_mem_nodup rows k1 cells hnd hmemrows, hpred⟩
    · left
      exact List.mem_singleton.mp h
  · intro i hi
    rw [hrw]
    exact alook_ains_ne _ _ _ _ (Ne.symm hi)
  · intro i v hv
    refine ⟨m, ?_, ?_⟩
    · rw [hrw]
      exact alook_ains_self _ _ _
    · rw [hm]
      exact mergeCells_preserves new _ 0 i v hv

/-- C5 (witness): the amended characterization at the concrete spacer-row
table. -/
theorem c5_witness :
    ∃ k, k ≤ exRowsSpan.length ∧
      (∀ i cells, alook exRowsSpan i = some cells →
        cells.all (fun e => e.2.isSpacer) = true → k ≤ i) ∧
      (k = exRowsSpan.length ∨ ∃ cells, alook exRowsSpan k = some cells ∧
        cells.all (fun e => e.2.isSpacer) = true) ∧
      (∀ i, i ≠ k → alook (add_row exRowsSpan [⟨9, false, 0, 1, 1⟩]) i
        = alook exRowsSpan i) ∧
      (∀ i v, alook ((alook exRowsSpan k).getD []) i = some v →
        ∃ cells, alook (add_row exRowsSpan [⟨9, false, 0, 1, 1⟩]) k = some cells ∧
          alook cells i = some v) :=
  c5_add_row_characterization exRowsSpan [⟨9, false, 0, 1, 1⟩] (by decide)

/-! ## Lemmas for `add_cell` -/

/-- Every existing key is below the next never-used index. -/
theorem keys_lt_nextIndex (l : List (Nat × α)) : ∀ k ∈ akeys l, k < nextIndex l := by
  unfold nextIndex
  induction akeys l with
  | nil => intro k hk; cases hk
  | cons y ys ih =>
    intro k hk
    rw [List.foldr_cons]
    rcases List.mem_cons.mp hk with rfl | hk
    · exact lt_of_lt_of_le (Nat.lt_succ_self k) (le_max_left _ _)
    · exact lt_of_lt_of_le (ih k hk) (le_max_right _ _)

/-- Assignment at a fresh key appends the entry. -/
theorem ains_fresh_append : ∀ (l : List (Nat × α)) (k : Nat) (v : α),
    k ∉ akeys l → ains l k v = l ++ [(k, v)]
  | [], k, v, _ => rfl
  | (k0, v0) :: rest, k, v, h => by
    have h0 : k0 ≠ k := by
      intro he
      exact h (he ▸ List.mem_cons_self k0 (akeys rest))
    unfold ains
    rw [if_neg h0, ains_fresh_append rest k v (fun hm => h (List.mem_cons_of_mem _ hm))]
    rfl

/-- A fold of assignments at pairwise-distinct fresh keys appends the entries
in order. -/
theorem foldl_ains_fresh_append (g : Nat → Nat) (v : Nat → α) :
    ∀ (idxs : List Nat) (l : List (Nat × α)), (∀ j ∈ idxs, g j ∉ akeys l) →
      (idxs.map g).Nodup →
      idxs.foldl (fun acc j => ains acc (g j) (v j)) l
        = l ++ idxs.map (fun j => (g j, v j)) := by
  intro idxs
  induction idxs with
  | nil => intro l _ _; simp
  | cons j rest ih =>
    intro l hfresh hnd
    have hnd2 : (∀ x ∈ rest, ¬ g x = g j) ∧ (List.map g rest).Nodup := by simpa using hnd
    rw [List.foldl_cons, ains_fresh_append l (g j) (v j) (hfresh j (List.mem_cons_self ..))]
    rw [ih (l ++ [(g j, v j)]) ?_ hnd2.2]
    · simp
    · intro j2 hj2
      have h1 : g j2 ∉ akeys l := hfresh j2 (List.mem_cons_of_mem _ hj2)
      have h2 : ¬ g j2 = g j := hnd2.1 j2 hj2
      simp [akeys, h2]
      simpa [akeys] using h1

/-- A fold of steps that never touch `key` leaves its lookup unchanged. -/
theorem alook_foldl_step_ne (step : List (Nat × α) → Nat → List (Nat × α)) (key : Nat) :
    ∀ (idxs : List Nat) (l : List (Nat × α)),
      (∀ acc, ∀ i ∈ idxs, alook (step acc i) key = alook acc key) →
      alook (idxs.foldl step l) key = alook l key := by
  intro idxs
  induction idxs with
  | nil => intro l _; rfl
  | cons j rest ih =>
    intro l h
    rw [List.foldl_cons, ih (step l j) (fun acc i hi => h acc i (List.mem_cons_of_mem _ hi))]
    exact h l j (List.mem_cons_self ..)

/-- The back-registration fold of `add_cell`: each distinct key receives the
auto-vivified map of the pre-fold state with one entry assigned. -/
theorem alook_foldl_ains_vivify (g : Nat → Nat) (w : Nat → β) (key2 : Nat) :
    ∀ (idxs : List Nat) (l : List (Nat × List (Nat × β))), (idxs.map g).Nodup →
      ∀ i ∈ idxs,
      alook (idxs.foldl
          (fun acc j => ains acc (g j) (ains ((alook acc (g j)).getD []) key2 (w j))) l)
        (g i) = some (ains ((alook l (g i)).getD []) key2 (w i)) := by
  intro idxs
  induction idxs with
  | nil => intro l _ i hi; cases hi
  | cons j rest ih =>
    intro l hnd i hi
    have hnd2 : (∀ x ∈ rest, ¬ g x = g j) ∧ (List.map g rest).Nodup := by simpa using hnd
    rw [List.foldl_cons]
    rcases List.mem_cons.mp hi with rfl | hi2
    · rw [alook_foldl_step_ne _ (g i) rest _ ?_]
      · rw [alook_ains_self]
      · intro acc i2 hi2
        exact alook_ains_ne _ _ _ _ (fun he => hnd2.1 i2 hi2 he)
    · rw [ih _ hnd2.2 i hi2]
      have hne : g j ≠ g i := fun he => hnd2.1 i hi2 he.symm
      rw [alook_ains_ne _ _ _ _ hne]

/-- Lookup in an untouched prefix falls through to the suffix. -/
theorem alook_append_right : ∀ (l1 l2 : List (Nat × α)) (k : Nat), k ∉ akeys l1 →
    alook (l1 ++ l2) k = alook l2 k
  | [], l2, k, _ => rfl
  | (k0, v0) :: rest, l2, k, h => by
    have h0 : k0 ≠ k := fun he => h (he ▸ List.mem_cons_self ..)
    show (if k0 = k then some v0 else alook (rest ++ l2) k) = alook l2 k
    rw [if_neg h0]
    exact alook_append_right rest l2 k (fun hm => h (List.mem_cons_of_mem _ hm))

/-- A successful lookup in the prefix is a lookup in the whole list. -/
theorem alook_append_left : ∀ (l1 l2 : List (Nat × α)) (k : Nat) (v : α),
    alook l1 k = some v → alook (l1 ++ l2) k = some v
  | [], _, _, _, h => by cases h
  | (k0, v0) :: rest, l2, k, v, h => by
    have h2 : (if k0 = k then some v0 else alook rest k) = some v := h
    show (if k0 = k then some v0 else alook (rest ++ l2) k) = some v
    by_cases h0 : k0 = k
    · rw [if_pos h0] at h2 ⊢
      exact h2
    · rw [if_neg h0] at h2 ⊢
      exact alook_append_left rest l2 k v h2

/-- Looking up span position `c + i` among the generated spacer entries. -/
theorem alook_spacer_map (c cid : Nat) :
    ∀ (n i : Nat), 1 ≤ i → i ≤ n →
      alook ((List.range n).map (fun j => (c + j + 1, mkSpacer cid (j + 1)))) (c + i)
        = some (mkSpacer cid i) := by
  intro n
  induction n with
  | zero => intro i h1 h2; omega
  | succ n ih =>
    intro i h1 h2
    rw [List.range_succ, List.map_append]
    by_cases hle : i ≤ n
    · exact alook_append_left _ _ _ _ (ih i h1 hle)
    · have hie : i = n + 1 := by omega
      rw [alook_append_right]
      · subst hie
        have : c + n + 1 = c + (n + 1) := by omega
        simp [alook, this]
      · intro hmem
        rcases List.mem_map.mp hmem with ⟨e, he, hfe⟩
        rcases List.mem_map.mp he with ⟨j, hj, rfl⟩
        have hjn := List.mem_range.mp hj
        simp only at hfe
        omega

/-! ## Claim C6: colspan generates correctly registered spacer cells -/

/-- C6: adding a cell with `colspan = k ≥ 2` to row `r` of a table (with a
fresh cell identity) lands at the next free column index `c` and creates
exactly `k - 1` `SpacerCell`s in that row, at column indices `c+1..c+k-1`,
each with `expands` pointing at the new cell and the matching span index, and
each also registered at row `r` of the corresponding column's index map. -/
theorem c6_colspan_creates_spacers (t : STable) (r cid cs rs : Nat) (hcs : 2 ≤ cs)
    (hfresh : ∀ p ∈ (alook t.rows r).getD [], p.2.expands ≠ cid) :
    ∃ c, c = nextIndex ((alook t.rows r).getD []) ∧
      (∃ rcells, alook (t.add_cell_row r cid cs rs).rows r = some rcells ∧
        (∀ i, 1 ≤ i → i < cs → alook rcells (c + i) = some (mkSpacer cid i)) ∧
        rcells.countP (fun p => p.2.isSpacer && p.2.expands == cid) = cs - 1) ∧
      (∀ i, 1 ≤ i → i < cs →
        ∃ ccells, alook (t.add_cell_row r cid cs rs).cols (c + i) = some ccells ∧
          alook ccells r = some (mkSpacer cid i)) := by
  have hstep : ∃ rc0 c rc2 cols1,
      rc0 = (alook t.rows r).getD [] ∧
      c = nextIndex rc0 ∧
      rc2 = (List.range (cs - 1)).foldl
        (fun acc i => ains acc (c + i + 1) (mkSpacer cid (i + 1)))
        (ains rc0 c ⟨cid, false, 0, cs, rs⟩) ∧
      cols1 = ains t.cols c
        ((List.range (rs - 1)).foldl
          (fun acc i => ains acc (r + i + 1) (mkSpacer cid (i + 1)))
          (ains ((alook t.cols c).getD []) r ⟨cid, false, 0, cs, rs⟩)) ∧
      (t.add_cell_row r cid cs rs).rows = (List.range (rs - 1)).foldl
        (fun acc i => ains acc (r + i + 1)
          (ains ((alook acc (r + i + 1)).getD []) c (mkSpacer cid (i + 1))))
        (ains t.rows r rc2) ∧
      (t.add_cell_row r cid cs rs).cols = (List.range (cs - 1)).foldl
        (fun acc i => ains acc (c + i + 1)
          (ains ((alook acc (c + i + 1)).getD []) r (mkSpacer cid (i + 1))))
        cols1 :=
    ⟨_, _, _, _, rfl, rfl, rfl, rfl, rfl, rfl⟩
  obtain ⟨rc0, c, rc2, cols1, hrc0, hc, hrc2def, hcols1, hrows, hcols⟩ := hstep
  have hkeys : ∀ k ∈ akeys rc0, k < c := by
    rw [hc]
    exact keys_lt_nextIndex rc0
  have hcell : ains rc0 c (⟨cid, false, 0, cs, rs⟩ : SCell) = rc0 ++ [(c, ⟨cid, false, 0, cs, rs⟩)] :=
    ains_fresh_append _ _ _ (fun hm => absurd (hkeys c hm) (lt_irrefl c))
  have hnodup : ((List.range (cs - 1)).map (fun j => c + j + 1)).Nodup := by
    refine List.Nodup.map ?_ (List.nodup_range _)
    intro a b hab
    simp only at hab
    omega
  have hrc2 : rc2 = (rc0 ++ [(c, ⟨cid, false, 0, cs, rs⟩)])
      ++ (List.range (cs - 1)).map (fun j => (c + j + 1, mkSpacer cid (j + 1))) := by
    rw [hrc2def, hcell]
    exact foldl_ains_fresh_append (fun j => c + j + 1) (fun j => mkSpacer cid (j + 1))
      (List.range (cs - 1)) _
      (by
        intro j _ hmem
        simp only [akeys, List.map_append] at hmem
        rcases List.mem_append.mp hmem with hm | hm
        · exact absurd (hkeys _ hm) (by omega)
        · simp at hm
          omega)
      hnodup
  have hrows_r : alook (t.add_cell_row r cid cs rs).rows r = some rc2 := by
    rw [hrows]
    rw [alook_foldl_step_ne _ r (List.range (rs - 1)) _ ?_]
    · exact alook_ains_self _ _ _
    · intro acc i _
      exact alook_ains_ne _ _ _ _ (by omega)
  refine ⟨c, by rw [hc, hrc0], ⟨rc2, hrows_r, ?_, ?_⟩, ?_⟩
  · intro i h1 h2
    rw [hrc2]
    rw [alook_append_right]
    · have e1 : i ≤ cs - 1 := by omega
      exact alook_spacer_map c cid (cs - 1) i h1 e1
    · intro hmem
      simp only [akeys, List.map_append] at hmem
      rcases List.mem_append.mp hmem with hm | hm
      · exact absurd (hkeys _ hm) (by omega)
      · simp at hm
        omega
  · rw [hrc2]
    rw [List.countP_append, List.countP_append]
    have h0 : rc0.countP (fun p => p.2.isSpacer && p.2.expands == cid) = 0 := by
      refine List.countP_eq_zero.mpr ?_
      intro p hp
      have := hfresh p (by rw [← hrc0]; exact hp)
      simp [this]
    have h1 : List.countP (fun p => p.2.isSpacer && p.2.expands == cid)
        [(c, (⟨cid, false, 0, cs, rs⟩ : SCell))] = 0 := by
      simp [List.countP_cons]
    have h2 : ((List.range (cs - 1)).map
        (fun j => (c + j + 1, mkSpacer cid (j + 1)))).countP
        (fun p => p.2.isSpacer && p.2.expands == cid) = cs - 1 := by
      rw [List.countP_eq_length.mpr ?_]
      · simp
      · intro p hp
        rcases List.mem_map.mp hp with ⟨j, _, rfl⟩
        simp [mkSpacer]
    rw [h0, h1, h2]
    omega
  · intro i h1 h2
    rw [hcols]
    have hv := alook_foldl_ains_vivify (fun j => c + j + 1) (fun j => mkSpacer cid (j + 1))
      r (List.range (cs - 1)) cols1 hnodup (i - 1) (List.mem_range.mpr (by omega))
    dsimp only at hv
    have e1 : c + (i - 1) + 1 = c + i := by omega
    have e2 : i - 1 + 1 = i := by omega
    rw [e1, e2] at hv
    exact ⟨_, hv, alook_ains_self _ _ _⟩

/-- C6 (witness): adding a colspan-2 cell (identity 1) to row 0 of the
concrete one-cell table. -/
theorem c6_witness :
    ∃ c, c = nextIndex ((alook exSTable.rows 0).getD []) ∧
      (∃ rcells, alook (exSTable.add_cell_row 0 1 2 1).rows 0 = some rcells ∧
        (∀ i, 1 ≤ i → i < 2 → alook rcells (c + i) = some (mkSpacer 1 i)) ∧
        rcells.countP (fun p => p.2.isSpacer && p.2.expands == 1) = 2 - 1) ∧
      (∀ i, 1 ≤ i → i < 2 →
        ∃ ccells, alook (exSTable.add_cell_row 0 1 2 1).cols (c + i) = some ccells ∧
          alook ccells 0 = some (mkSpacer 1 i)) :=
  c6_colspan_creates_spacers exSTable 0 1 2 1 (by decide) (by decide)

/-! ## Line-count lemmas for the renderer -/

/-- Newline counts add over concatenation. -/
theorem nlCount_append (a b : List Frag) : nlCount (a ++ b) = nlCount a + nlCount b := by
  simp [nlCount]

/-- Newline counts of a flattened map sum the per-block counts. -/
theorem nlCount_flatMap (l : List α) (f : α → List Frag) :
    nlCount (l.flatMap f) = (l.map (fun x => nlCount (f x))).sum := by
  induction l with
  | nil => rfl
  | cons x xs ih => simp [List.flatMap_cons, nlCount_append, ih]

/-- No junction or run glyph is a line break. -/
theorem boolGridChar_ne_nl : ∀ a b c d : Bool, boolGridChar a b c d ≠ '\n' := by decide

/-- `gridCharC` never draws a line break. -/
theorem gridCharC_ne_nl (n e s w : LineStyle) : gridCharC n e s w ≠ '\n' :=
  boolGridChar_ne_nl n.visible e.visible s.visible w.visible

/-- A one-character string of a non-newline character has no newlines. -/
theorem countNl_mk_single (c : Char) (h : c ≠ '\n') : countNl (String.mk [c]) = 0 := by
  simp [countNl, List.count_cons]
  exact h

/-- A stripped character contributes no newlines. -/
theorem countNl_stripChar (c : Char) (h : c ≠ '\n') : countNl (stripChar c) = 0 := by
  unfold stripChar
  split
  · rfl
  · exact countNl_mk_single c h

/-- Repeated non-newline characters contribute no newlines. -/
theorem countNl_repChar (c : Char) (n : Int) (h : c ≠ '\n') : countNl (repChar c n) = 0 := by
  unfold repChar countNl
  rw [List.count_replicate]
  simp
  exact fun he => absurd he h

/-- Space padding contributes no newlines. -/
theorem countNl_mkSpaces (n : Int) : countNl (mkSpaces n) = 0 :=
  countNl_repChar ' ' n (by decide)

/-- Splitting always yields at least one piece. -/
theorem splitChar_ne_nil (sep : Char) : ∀ (l : List Char), splitChar sep l ≠ [] := by
  intro l
  cases l with
  | nil => simp [splitChar]
  | cons x xs =>
    unfold splitChar
    cases hrec : splitChar sep xs with
    | nil => simp
    | cons h0 t0 =>
      dsimp only
      split <;> simp

/-- Pieces produced by splitting at `sep` never contain `sep`. -/
theorem splitChar_no_sep (sep : Char) :
    ∀ (l piece : List Char), piece ∈ splitChar sep l → sep ∉ piece := by
  intro l
  induction l with
  | nil =>
    intro piece hp
    rcases List.mem_singleton.mp hp with rfl
    simp
  | cons x xs ih =>
    intro piece hp
    unfold splitChar at hp
    revert hp
    cases hrec : splitChar sep xs with
    | nil => intro _; exact absurd hrec (splitChar_ne_nil sep xs)
    | cons h0 t0 =>
      intro hp
      dsimp only at hp
      by_cases hx : x = sep
      · rw [if_pos hx] at hp
        rcases List.mem_cons.mp hp with rfl | hp2
        · simp
        · exact ih piece (by rw [hrec]; exact hp2)
      · rw [if_neg hx] at hp
        rcases List.mem_cons.mp hp with rfl | hp2
        · intro hm
          rcases List.mem_cons.mp hm with rfl | hm2
          · exact hx rfl
          · exact ih h0 (by rw [hrec]; exact List.mem_cons_self ..) hm2
        · exact ih piece (by rw [hrec]; exact List.mem_cons_of_mem _ hp2)

/-- Chunked pieces only contain characters of the original line. -/
theorem chunksGo_mem (w : Nat) :
    ∀ (fuel : Nat) (l piece : List Char), piece ∈ chunksGo w fuel l →
      ∀ x ∈ piece, x ∈ l := by
  intro fuel
  induction fuel with
  | zero =>
    intro l piece hp x hx
    rcases List.mem_singleton.mp hp with rfl
    exact hx
  | succ fuel ih =>
    intro l piece hp x hx
    unfold chunksGo at hp
    split at hp
    · rcases List.mem_singleton.mp hp with rfl
      exact hx
    · rcases List.mem_cons.mp hp with rfl | hp2
      · exact List.mem_of_mem_take hx
      · exact List.mem_of_mem_drop (ih (l.drop w) piece hp2 x hx)

/-- Wrapping yields at least one piece. -/
theorem wrapChunks_ne_nil (w : Int) (l : List Char) : wrapChunks w l ≠ [] := by
  unfold wrapChunks
  split
  · simp
  · cases hl : l.length with
    | zero => simp [chunksGo]
    | succ n =>
      unfold chunksGo
      split <;> simp

/-- Wrapped pieces only contain characters of the original line. -/
theorem wrapChunks_mem (w : Int) (l piece : List Char) (hp : piece ∈ wrapChunks w l) :
    ∀ x ∈ piece, x ∈ l := by
  unfold wrapChunks at hp
  split at hp
  · rcases List.mem_singleton.mp hp with rfl
    exact fun x hx => hx
  · exact chunksGo_mem _ _ l piece hp

/-- Every fragment of a produced cell line is newline-free. -/
theorem cellLines_no_nl (t : RTable) (i j : Nat) (w : Int) :
    ∀ line ∈ t.cellLines i j w, ∀ fr ∈ line, countNl fr.2 = 0 := by
  intro line hline fr hfr
  unfold RTable.cellLines at hline
  rcases List.mem_map.mp hline with ⟨lc, hlc, rfl⟩
  rcases List.mem_singleton.mp hfr with rfl
  show (String.mk lc).data.count _ = 0
  refine List.count_eq_zero.mpr ?_
  intro hmem
  rcases List.mem_append.mp hlc with hl | hr
  · rcases List.mem_append.mp hl with hl2 | hc
    · rw [List.eq_of_mem_replicate hl2] at hmem
      cases hmem
    · rcases List.mem_flatMap.mp hc with ⟨piece, hpiece, hwrap⟩
      exact splitChar_no_sep _ _ piece hpiece (wrapChunks_mem _ _ _ hwrap _ hmem)
  · rw [List.eq_of_mem_replicate hr] at hmem
    cases hmem

/-- Every cell produces at least one line. -/
theorem cellLines_ne_nil (t : RTable) (i j : Nat) (w : Int) :
    t.cellLines i j w ≠ [] := by
  unfold RTable.cellLines
  intro h
  rcases List.map_eq_nil_iff.mp h with hnil
  rcases List.append_eq_nil.mp hnil with ⟨hl, _⟩
  rcases List.append_eq_nil.mp hl with ⟨_, hc⟩
  rcases List.flatMap_eq_nil_iff.mp hc with hall
  have h1 := splitChar_ne_nil '\n' (t.cellAt i j).text.data
  match hs : splitChar '\n' (t.cellAt i j).text.data with
  | [] => exact h1 hs
  | piece :: rest =>
    exact wrapChunks_ne_nil w piece (hall piece (hs ▸ List.mem_cons_self ..))



/-- Junction glyphs are never line breaks. -/
theorem get_node_ne_nl (nw ne se sw : DiLineStyle) : get_node nw ne se sw ≠ '\n' :=
  boolGridChar_ne_nl (nw.right.maxS ne.left).visible (ne.bottom.maxS se.top).visible
    (se.left.maxS sw.right).visible (sw.top.maxS nw.bottom).visible

/-- Horizontal run glyphs are never line breaks. -/
theorem get_horizontal_edge_ne_nl (n s : DiLineStyle) : get_horizontal_edge n s ≠ '\n' :=
  boolGridChar_ne_nl LineStyle.noLine.visible (n.bottom.maxS s.top).visible
    LineStyle.noLine.visible (n.bottom.maxS s.top).visible

/-- Vertical run glyphs are never line breaks. -/
theorem get_vertical_edge_ne_nl (w e : DiLineStyle) : get_vertical_edge w e ≠ '\n' :=
  boolGridChar_ne_nl (w.right.maxS e.left).visible LineStyle.noLine.visible
    (w.right.maxS e.left).visible LineStyle.noLine.visible

/-- Resolved horizontal edge glyphs are never line breaks. -/
theorem borderEdgeChar_ne_nl (t : RTable) (refA refB : Nat → CellRef) (i : Nat) :
    t.borderEdgeChar refA refB i ≠ '\n' :=
  get_horizontal_edge_ne_nl (t.cblRef (refA (i + 1))) (t.cblRef (refB (i + 1)))

/-- A fragment list all of whose texts are newline-free counts zero. -/
theorem nlCount_of_all_zero (l : List Frag) (h : ∀ fr ∈ l, countNl fr.2 = 0) :
    nlCount l = 0 := by
  unfold nlCount
  refine List.sum_eq_zero ?_
  intro x hx
  rcases List.mem_map.mp hx with ⟨fr, hfr, rfl⟩
  exact h fr hfr

/-- Summing per-block newline counts of newline-free blocks gives zero. -/
theorem sum_map_nl_zero (l : List α) (f : α → List Frag)
    (h : ∀ x ∈ l, nlCount (f x) = 0) :
    (l.map (fun x => nlCount (f x))).sum = 0 := by
  refine List.sum_eq_zero ?_
  intro x hx
  rcases List.mem_map.mp hx with ⟨i, hi, rfl⟩
  exact h i hi

/-- Vertical boundary fragments contain no line break. -/
theorem vertBorders_no_nl (t : RTable) (i : Nat) :
    ∀ fr ∈ t.vertBorders i, countNl fr.2 = 0 := by
  intro fr hfr
  unfold RTable.vertBorders at hfr
  rcases List.mem_map.mp hfr with ⟨k, _, rfl⟩
  dsimp only
  repeat' split
  all_goals first
    | exact countNl_stripChar _ (get_vertical_edge_ne_nl _ _)
    | exact countNl_mk_single _ (get_vertical_edge_ne_nl _ _)

/-- Indexed access to the vertical boundary fragments is newline-free. -/
theorem vertBorders_getD_no_nl (t : RTable) (i k : Nat) :
    countNl ((t.vertBorders i).getD k ("", "")).2 = 0 := by
  by_cases hk : k < (t.vertBorders i).length
  · rw [List.getD_eq_getElem _ _ hk]
    exact vertBorders_no_nl t i _ (List.getElem_mem hk)
  · rw [List.getD_eq_default _ _ (by omega)]
    rfl

/-- One border-row column block (junction fragment plus run fragment)
contributes no line break. -/
theorem nlCount_node_edge_block (nstyle estyle : String) (nchar echar : Char)
    (ew : Int) (cond1 cond2 : Prop) [Decidable cond1] [Decidable cond2]
    (hn : nchar ≠ '\n') (he : echar ≠ '\n') :
    nlCount ((if cond1 then
        (if nchar.isWhitespace then [] else [(nstyle, String.mk [nchar])])
      else [(nstyle, String.mk [nchar])]) ++
      (if cond2 then [(estyle, repChar echar ew)] else [])) = 0 := by
  rw [nlCount_append]
  have hs : nlCount [(nstyle, String.mk [nchar])] = 0 := by
    show countNl (String.mk [nchar]) + 0 = 0
    rw [countNl_mk_single _ hn]
  have h1 : nlCount (if cond1 then
      (if nchar.isWhitespace then [] else [(nstyle, String.mk [nchar])])
      else [(nstyle, String.mk [nchar])]) = 0 := by
    split
    · split
      · rfl
      · exact hs
    · exact hs
  have h2 : nlCount (if cond2 then [(estyle, repChar echar ew)] else []) = 0 := by
    split
    · show countNl (repChar echar ew) + 0 = 0
      rw [countNl_repChar _ _ he]
    · rfl
  omega

/-- `draw_border_row` is either collapsed away or emits exactly one line,
ending in the line-break fragment. -/
theorem draw_border_row_cases (t : RTable) (a b : Option Nat) (cw : List Int)
    (collapse : Bool) :
    t.draw_border_row a b cw collapse = [] ∨
      (nlCount (t.draw_border_row a b cw collapse) = 1 ∧
        (t.draw_border_row a b cw collapse).getLast? = some ("", "\n")) := by
  unfold RTable.draw_border_row
  dsimp only
  split
  · exact Or.inl rfl
  · right
    refine ⟨?_, List.getLast?_concat _⟩
    rw [nlCount_append, nlCount_flatMap, sum_map_nl_zero]
    · decide
    · intro i _
      exact nlCount_node_edge_block _ _ _ _ _ _ _
        (get_node_ne_nl _ _ _ _) (borderEdgeChar_ne_nl t _ _ i)

/-- The line-break fragment text contains exactly one newline. -/
theorem countNl_nl : countNl "\n" = 1 := by decide

/-- Fragments of an indexed (possibly missing) cell line are newline-free. -/
theorem cellLines_getD_no_nl (t : RTable) (i j : Nat) (w : Int) (li : Nat) :
    ∀ fr ∈ (t.cellLines i j w).getD li [], countNl fr.2 = 0 := by
  by_cases hli : li < (t.cellLines i j w).length
  · rw [List.getD_eq_getElem _ _ hli]
    exact cellLines_no_nl t i j w _ (List.getElem_mem hli)
  · rw [List.getD_eq_default _ _ (by omega)]
    intro fr hfr
    cases hfr

/-- One cell's fragments within a content line contain no line break. -/
theorem nlCount_cell_block (bfr : Frag) (hb : countNl bfr.2 = 0) (ps cs2 : String)
    (pl ex pr : Int) (line : List Frag) (hline : ∀ fr ∈ line, countNl fr.2 = 0) :
    nlCount (bfr :: (ps, mkSpaces pl) ::
      (line ++ [(cs2, mkSpaces ex), (ps, mkSpaces pr)])) = 0 := by
  refine nlCount_of_all_zero _ ?_
  intro fr hfr
  rcases List.mem_cons.mp hfr with rfl | hfr
  · exact hb
  rcases List.mem_cons.mp hfr with rfl | hfr
  · exact countNl_mkSpaces _
  rcases List.mem_append.mp hfr with hl | hr
  · exact hline fr hl
  rcases List.mem_cons.mp hr with rfl | hr
  · exact countNl_mkSpaces _
  rcases List.mem_singleton.mp hr with rfl
  exact countNl_mkSpaces _

/-- Sums of all-ones maps count the list length. -/
theorem sum_map_ones (l : List α) (f : α → Nat) (h : ∀ x ∈ l, f x = 1) :
    (l.map f).sum = l.length := by
  induction l with
  | nil => rfl
  | cons x xs ih =>
    rw [List.map_cons, List.sum_cons, h x (List.mem_cons_self ..),
      ih (fun y hy => h y (List.mem_cons_of_mem _ hy)), List.length_cons]
    omega

/-- A flattened map whose every block ends in `v` ends in `v`. -/
theorem getLast?_flatMap_ends (l : List α) (F : α → List Frag) (v : Frag)
    (hF : ∀ x ∈ l, (F x).getLast? = some v) (hne : l ≠ []) :
    (l.flatMap F).getLast? = some v := by
  induction l with
  | nil => exact absurd rfl hne
  | cons x rest ih =>
    rw [List.flatMap_cons]
    cases rest with
    | nil => simp [hF x (List.mem_cons_self ..)]
    | cons y rest2 =>
      rw [List.getLast?_append,
        ih (fun z hz => hF z (List.mem_cons_of_mem _ hz)) (by simp)]
      rfl

/-- `draw_table_row` on an actual row emits exactly one line per wrapped line
of the row's tallest cell. -/
theorem draw_table_row_count (t : RTable) (i : Nat) (cw : List Int) :
    nlCount (t.draw_table_row (some i) cw) = t.rowHeight i cw := by
  unfold RTable.draw_table_row
  dsimp only
  rw [nlCount_flatMap, sum_map_ones]
  · rw [List.length_range]
    rfl
  · intro li _
    rw [nlCount_append, nlCount_flatMap, sum_map_nl_zero]
    · show 0 + (countNl ((t.vertBorders i).getD (t.rowLen i) ("", "")).2
        + (countNl "\n" + 0)) = 1
      rw [vertBorders_getD_no_nl, countNl_nl]
    · intro j _
      split
      · rfl
      · exact nlCount_cell_block _ (vertBorders_getD_no_nl t i j) _ _ _ _ _ _
          (cellLines_getD_no_nl t i j _ li)

/-- `draw_table_row` on a row with at least one line ends in the line-break
fragment. -/
theorem draw_table_row_ends (t : RTable) (i : Nat) (cw : List Int)
    (h : 1 ≤ t.rowHeight i cw) :
    (t.draw_table_row (some i) cw).getLast? = some ("", "\n") := by
  unfold RTable.draw_table_row
  dsimp only
  refine getLast?_flatMap_ends _ _ _ ?_ ?_
  · intro li _
    rw [List.getLast?_append]
    rfl
  · show List.range (t.rowHeight i cw) ≠ []
    simp only [ne_eq, List.range_eq_nil]
    omega

/-- The second components of the traversed boundaries are the rows in order,
followed by the closing table edge. -/
theorem boundaries_snd (n : Nat) :
    (boundaries n).map Prod.snd = (List.range n).map some ++ [none] := by
  unfold boundaries
  apply List.map_snd_zip
  simp

/-- Every boundary's below-row is either the table edge or an actual row. -/
theorem boundaries_snd_mem (n : Nat) (ab : Option Nat × Option Nat)
    (h : ab ∈ boundaries n) : ab.2 = none ∨ ∃ i, ab.2 = some i ∧ i < n := by
  have h2 : ab.2 ∈ (boundaries n).map Prod.snd := List.mem_map.mpr ⟨ab, h, rfl⟩
  rw [boundaries_snd] at h2
  rcases List.mem_append.mp h2 with hl | hr
  · rcases List.mem_map.mp hl with ⟨i, hi, he⟩
    exact Or.inr ⟨i, he.symm, List.mem_range.mp hi⟩
  · exact Or.inl (List.mem_singleton.mp hr)

/-- In a synchronized rectangular table every row has `ncols` cells. -/
theorem rowLen_eq_ncols (t : RTable) (hrect : ∀ row ∈ t.cells, row.length = t.ncols)
    (i : Nat) (hi : i < t.nrows) : t.rowLen i = t.ncols := by
  unfold RTable.rowLen
  rw [List.getD_eq_getElem _ _ hi]
  exact hrect _ (List.getElem_mem hi)

/-- Every member is below a `max` fold. -/
theorem le_foldr_max_nat (l : List Nat) : ∀ x ∈ l, x ≤ l.foldr max 0 := by
  induction l with
  | nil => intro x hx; cases hx
  | cons y ys ih =>
    intro x hx
    rcases List.mem_cons.mp hx with rfl | hx
    · exact le_max_left _ _
    · exact le_trans (ih x hx) (le_max_right _ _)

/-- A nonempty row is at least one line tall. -/
theorem rowHeight_pos (t : RTable) (i : Nat) (cw : List Int) (h : 1 ≤ t.rowLen i) :
    1 ≤ t.rowHeight i cw := by
  unfold RTable.rowHeight
  have hmem : (t.cellLines i 0 (t.calcCellWidth i 0 cw)).length ∈
      (List.range (t.rowLen i)).map
        (fun j => (t.cellLines i j (t.calcCellWidth i j cw)).length) :=
    List.mem_map.mpr ⟨0, List.mem_range.mpr (by omega), rfl⟩
  have hpos : 1 ≤ (t.cellLines i 0 (t.calcCellWidth i 0 cw)).length :=
    List.length_pos.mpr (cellLines_ne_nil t i 0 _)
  exact le_trans hpos (le_foldr_max_nat _ _ hmem)

/-- Concatenation preserves "empty or ends in the line-break fragment". -/
theorem endsNl_append (a b : List Frag)
    (ha : a = [] ∨ a.getLast? = some ("", "\n"))
    (hb : b = [] ∨ b.getLast? = some ("", "\n")) :
    a ++ b = [] ∨ (a ++ b).getLast? = some ("", "\n") := by
  rcases hb with rfl | hb
  · simpa using ha
  · right
    rw [List.getLast?_append, hb]
    rfl

/-- Flattening preserves "empty or ends in the line-break fragment". -/
theorem endsNl_flatMap (l : List α) (F : α → List Frag)
    (h : ∀ x ∈ l, F x = [] ∨ (F x).getLast? = some ("", "\n")) :
    l.flatMap F = [] ∨ (l.flatMap F).getLast? = some ("", "\n") := by
  induction l with
  | nil => exact Or.inl rfl
  | cons x rest ih =>
    rw [List.flatMap_cons]
    exact endsNl_append _ _ (h x (List.mem_cons_self ..))
      (ih (fun y hy => h y (List.mem_cons_of_mem _ hy)))

/-- Sums of pointwise sums split. -/
theorem sum_map_add_nat (l : List α) (f g : α → Nat) :
    (l.map (fun x => f x + g x)).sum = (l.map f).sum + (l.map g).sum := by
  induction l with
  | nil => rfl
  | cons x xs ih =>
    rw [List.map_cons, List.sum_cons, ih, List.map_cons, List.sum_cons,
      List.map_cons, List.sum_cons]
    omega

/-- A sum of 0/1 indicators counts the filtered elements. -/
theorem sum_map_indicator (l : List α) (f : α → Nat) (p : α → Bool)
    (h : ∀ x ∈ l, (p x = true ∧ f x = 1) ∨ (p x = false ∧ f x = 0)) :
    (l.map f).sum = (l.filter p).length := by
  induction l with
  | nil => rfl
  | cons x xs ih =>
    rw [List.map_cons, List.sum_cons, List.filter_cons,
      ih (fun y hy => h y (List.mem_cons_of_mem _ hy))]
    rcases h x (List.mem_cons_self ..) with ⟨hp, hf⟩ | ⟨hp, hf⟩ <;>
      simp [hp, hf] <;> omega

/-- Mapping through the second projection preserves sums. -/
theorem map_snd_sum (l : List (β × γ)) (h : γ → Nat) :
    (l.map (fun ab => h ab.2)).sum = ((l.map Prod.snd).map h).sum := by
  rw [List.map_map]
  rfl

/-- Dropping the final line-break fragment removes exactly one line break. -/
theorem nlCount_dropLast (l : List Frag) (h : l.getLast? = some ("", "\n")) :
    nlCount l.dropLast + 1 = nlCount l := by
  have hne : l ≠ [] := by
    intro he
    rw [he] at h
    cases h
  have hdecomp := List.dropLast_concat_getLast hne
  have hlast : l.getLast hne = ("", "\n") := by
    have h2 := List.getLast?_eq_getLast l hne
    rw [h2] at h
    exact Option.some.inj h
  have h1 : nlCount [(("" : String), ("\n" : String))] = 1 := by decide
  calc nlCount l.dropLast + 1
      = nlCount l.dropLast + nlCount [(("" : String), ("\n" : String))] := by rw [h1]
    _ = nlCount (l.dropLast ++ [("", "\n")]) := (nlCount_append _ _).symm
    _ = nlCount (l.dropLast ++ [l.getLast hne]) := by rw [hlast]
    _ = nlCount l := by rw [hdecomp]

/-! ## Claim C8: render's output line count -/

/-- C8: for every rectangular table with at least one row and one column, the
number of output lines of `render(width)` equals the number of non-collapsed
border rows plus, summed over all rows, the number of wrapped lines of that
row's tallest cell at the negotiated column widths. -/
theorem c8_render_line_count (t : RTable) (w : Dim)
    (h1 : 1 ≤ t.nrows) (h2 : 1 ≤ t.ncols)
    (hrect : ∀ row ∈ t.cells, row.length = t.ncols) :
    ∃ out cw, t.render w = some out ∧ t.calculate_col_widths w = some cw ∧
      outLineCount out = t.borderRowCount cw +
        ((List.range t.nrows).map (fun i => t.rowHeight i cw)).sum := by
  obtain ⟨cw, hcalc, _⟩ := calc_isSome t w h1 h2
  have hout : ∃ out0, (boundaries t.nrows).flatMap (fun ab =>
      t.draw_border_row ab.1 ab.2 cw t.collapse ++ t.draw_table_row ab.2 cw) = out0 :=
    ⟨_, rfl⟩
  obtain ⟨out0, hout0⟩ := hout
  have hcount : nlCount out0 = t.borderRowCount cw +
      ((List.range t.nrows).map (fun i => t.rowHeight i cw)).sum := by
    rw [← hout0, nlCount_flatMap]
    have hpointwise : ∀ ab ∈ boundaries t.nrows,
        nlCount (t.draw_border_row ab.1 ab.2 cw t.collapse ++ t.draw_table_row ab.2 cw)
          = (fun ab : Option Nat × Option Nat =>
              nlCount (t.draw_border_row ab.1 ab.2 cw t.collapse)
                + nlCount (t.draw_table_row ab.2 cw)) ab :=
      fun ab _ => nlCount_append _ _
    rw [List.map_congr_left hpointwise, sum_map_add_nat]
    have hborder : ((boundaries t.nrows).map (fun ab =>
        nlCount (t.draw_border_row ab.1 ab.2 cw t.collapse))).sum
          = t.borderRowCount cw := by
      unfold RTable.borderRowCount
      apply sum_map_indicator
      intro ab _
      rcases draw_border_row_cases t ab.1 ab.2 cw t.collapse with he | ⟨hc, _⟩
      · right
        refine ⟨by simp [he], by rw [he]; rfl⟩
      · left
        have hne : t.draw_border_row ab.1 ab.2 cw t.collapse ≠ [] := by
          intro hnil
          rw [hnil] at hc
          exact absurd hc (by decide)
        refine ⟨by simp [List.isEmpty_iff, hne], hc⟩
    have hrows : ((boundaries t.nrows).map (fun ab =>
        nlCount (t.draw_table_row ab.2 cw))).sum
          = ((List.range t.nrows).map (fun i => t.rowHeight i cw)).sum := by
      have hsnd := map_snd_sum (boundaries t.nrows)
        (fun r => nlCount (t.draw_table_row r cw))
      rw [hsnd, boundaries_snd, List.map_append, List.sum_append, List.map_map]
      have hnone : (([(none : Option Nat)]).map
          (fun r => nlCount (t.draw_table_row r cw))).sum = 0 := rfl
      rw [hnone]
      have hcong : ∀ i ∈ List.range t.nrows,
          ((fun r => nlCount (t.draw_table_row r cw)) ∘ some) i
            = (fun i => t.rowHeight i cw) i :=
        fun i _ => draw_table_row_count t i cw
      rw [List.map_congr_left hcong]
      omega
    rw [hborder, hrows]
  have hends : out0 = [] ∨ out0.getLast? = some ("", "\n") := by
    rw [← hout0]
    apply endsNl_flatMap
    intro ab hab
    apply endsNl_append
    · rcases draw_border_row_cases t ab.1 ab.2 cw t.collapse with he | ⟨_, hl⟩
      · exact Or.inl he
      · exact Or.inr hl
    · rcases boundaries_snd_mem _ ab hab with hn | ⟨i, hi, hlt⟩
      · left
        rw [hn]
        rfl
      · right
        rw [hi]
        apply draw_table_row_ends
        apply rowHeight_pos
        rw [rowLen_eq_ncols t hrect i hlt]
        omega
  have hpos : 1 ≤ nlCount out0 := by
    rw [hcount]
    have h0 : t.rowHeight 0 cw ∈ (List.range t.nrows).map (fun i => t.rowHeight i cw) :=
      List.mem_map.mpr ⟨0, List.mem_range.mpr (by omega), rfl⟩
    have hle := List.single_le_sum (fun x _ => Nat.zero_le x) _ h0
    have hrh : 1 ≤ t.rowHeight 0 cw := by
      apply rowHeight_pos
      rw [rowLen_eq_ncols t hrect 0 (by omega)]
      omega
    omega
  have hne0 : out0 ≠ [] := by
    intro he
    rw [he] at hpos
    have hz : nlCount ([] : List Frag) = 0 := rfl
    omega
  rcases hends with he | hlast
  · exact absurd he hne0
  refine ⟨out0.dropLast, cw, ?_, hcalc, ?_⟩
  · unfold RTable.render
    rw [hcalc]
    dsimp only
    rw [if_pos (by omega : t.nrows ≠ 0), hout0, if_neg hne0]
  · unfold outLineCount
    rw [nlCount_dropLast out0 hlast]
    exact hcount

/-- C8 (witness): the line-count identity at the concrete 1×1 table. -/
theorem c8_witness :
    ∃ out cw, exTable1.render (Dim.exact 10) = some out ∧
      exTable1.calculate_col_widths (Dim.exact 10) = some cw ∧
      outLineCount out = exTable1.borderRowCount cw +
        ((List.range exTable1.nrows).map (fun i => exTable1.rowHeight i cw)).sum :=
  c8_render_line_count exTable1 (Dim.exact 10) (by decide) (by decide)
    (by intro row hrow; rcases List.mem_singleton.mp hrow with rfl; rfl)
